import Mathlib

/-
Shallow embedding of the High-Performance-HTTP-Cache library.

The embedding covers the four cache engines of the repository:
 * `MemoryCache`  — the configurable engine (memory.go / config part),
 * `SimpleCache`  — the unbounded engine (memory/simple.go),
 * `LRUCache`     — the recency-ordered engine (memory/lru.go),
 * `LFUCache`     — the frequency-ordered engine (the LFU source file).

Conventions of the embedding:
 * Go `map[string]*T` becomes an association list `List (Key × T)`;
   the list order stands for one possible iteration order of the map
   (Go specifies no order), and in-place mutation through an entry
   pointer becomes re-insertion of the updated record.
 * `time.Time` / `time.Duration` become `Int` nanoseconds; each public
   operation takes the current instant `now` as an explicit argument,
   and all `time.Now()` calls inside a single operation read this one
   instant (the sequential collapse of one locked call).
 * The zero `time.Time` (only used by the memory-package engines) is
   `Option Int` with `none` for the zero value.
 * The LRU doubly linked list with head/tail sentinels is represented
   by the sequence of its keys, head (most recent) first; unlinking a
   node is removal from that sequence.
 * Mutating byte slices are modelled twice: the pure level keeps the
   contents (`Bytes`), and a small heap model (`Heap`) captures slice
   identity for the copy-on-write/copy-on-read discipline.
-/

namespace HPCache

/-- Keys are Go strings. -/
abbrev Key := String

/-- Values are opaque byte sequences. -/
abbrev Bytes := List Nat

/- Instants (`time.Time` on one monotone clock) and durations
(`time.Duration`) are both plain `Int` nanosecond counts. -/

/-- `m[k]` on a Go map modelled as an association list. -/
def lookupKey {α : Type} : List (Key × α) → Key → Option α
  | [], _ => none
  | kv :: rest, k => if kv.1 = k then some kv.2 else lookupKey rest k

/-- `m[k] = v` on a Go map: replace the binding in place, or append a
fresh binding for a new key. -/
def insertKey {α : Type} : List (Key × α) → Key → α → List (Key × α)
  | [], k, v => [(k, v)]
  | kv :: rest, k, v => if kv.1 = k then (k, v) :: rest else kv :: insertKey rest k v

/-- `delete(m, k)` on a Go map: drop the binding of `k`. -/
def eraseKey {α : Type} : List (Key × α) → Key → List (Key × α)
  | [], _ => []
  | kv :: rest, k => if kv.1 = k then rest else kv :: eraseKey rest k

/-- Shared error taxonomy (cache.go): `ErrKeyEmpty` and `ErrCacheClosed`
are the only errors the in-scope engines return. -/
inductive CacheError
  | keyEmpty
  | cacheClosed
deriving DecidableEq

/-- Cache statistics (cache.go `Stats`).  `hitRate` is kept as an exact
rational; the Go field is a `float64` computed by the same formula. -/
structure Stats where
  hits : Int
  misses : Int
  keys : Int
  evictions : Int
  hitRate : ℚ
deriving DecidableEq

/-- `Stats.CalculateHitRate` (cache.go): writes `hits/(hits+misses)*100`
when at least one access happened, otherwise leaves the field alone. -/
def Stats.calculateHitRate (s : Stats) : Stats :=
  let total := s.hits + s.misses
  if 0 < total then { s with hitRate := (s.hits : ℚ) / (total : ℚ) * 100 } else s

/-! ### The configurable engine: `MemoryCache` (memory.go) -/

/-- `EvictionPolicy` is an integer enum in the source. -/
def LRU : Int := 0

def LFU : Int := 1

def FIFO : Int := 2

/-- `Config` for the configurable engine. -/
structure Config where
  maxSize : Int
  defaultTTL : Int
  cleanupInterval : Int
  evictionPolicy : Int
deriving DecidableEq

/-- `DefaultConfig()`. -/
def DefaultConfig : Config :=
  { maxSize := 1000
    defaultTTL := 5 * 60 * 1000000000
    cleanupInterval := 60 * 1000000000
    evictionPolicy := LRU }

/-- Per-entry record of the configurable engine (`Item` in memory.go). -/
structure Item where
  value : Bytes
  expiresAt : Int
  lastAccess : Int
  accessCount : Int
  createdAt : Int
deriving DecidableEq

/-- `Item.IsExpired`: `time.Now().After(item.ExpiresAt)`. -/
def Item.isExpired (item : Item) (now : Int) : Bool :=
  decide (item.expiresAt < now)

/-- `Item.Touch`: refresh `LastAccess` and bump `AccessCount`. -/
def Item.touch (item : Item) (now : Int) : Item :=
  { item with lastAccess := now, accessCount := item.accessCount + 1 }

/-- State of the configurable engine.  `stopCh`/`once` carry no data;
`Close` only signals the sweep goroutine and leaves this state as is. -/
structure MemoryCache where
  data : List (Key × Item)
  config : Config
  hits : Int
  misses : Int
  evictions : Int
deriving DecidableEq

/-- `NewMemoryCache`. -/
def NewMemoryCache (config : Config) : MemoryCache :=
  { data := [], config := config, hits := 0, misses := 0, evictions := 0 }

/-- The sentinel "effectively never" expiry used by the configurable
engine when neither the call nor the config carries a TTL:
`now.Add(100 * 365 * 24 * time.Hour)`. -/
def noTTLHorizon : Int := 100 * 365 * 24 * 3600 * 1000000000

/-- `MemoryCache.Get` (memory.go).  The three locked sections of the
source collapse into one sequential pass: lookup, double-checked expiry
deletion, then the hit path that touches the entry and copies the value. -/
def MemoryCache.Get (c : MemoryCache) (key : Key) (now : Int) :
    Option Bytes × MemoryCache :=
  match lookupKey c.data key with
  | none => (none, { c with misses := c.misses + 1 })
  | some item =>
    let checked : List (Key × Item) × Bool :=
      if item.isExpired now then
        match lookupKey c.data key with
        | some item2 =>
          if item2.isExpired now then (eraseKey c.data key, false) else (c.data, true)
        | none => (c.data, false)
      else (c.data, true)
    if checked.2 then
      match lookupKey checked.1 key with
      | some item3 =>
        if item3.isExpired now then
          (none, { c with data := checked.1, misses := c.misses + 1 })
        else
          (some item3.value,
           { c with data := insertKey checked.1 key (item3.touch now), hits := c.hits + 1 })
      | none => (none, { c with data := checked.1, misses := c.misses + 1 })
    else
      (none, { c with data := checked.1, misses := c.misses + 1 })

/-- The scan of `MemoryCache.evictLRU`: keep the entry with the strictly
earliest `LastAccess`; the `first` flag is the bool of the source loop. -/
def MemoryCache.lruScan : Bool → Key → Int → List (Key × Item) → Key
  | _, bestKey, _, [] => bestKey
  | first, bestKey, bestTime, (k, it) :: rest =>
    if first = true ∨ it.lastAccess < bestTime then
      MemoryCache.lruScan false k it.lastAccess rest
    else
      MemoryCache.lruScan false bestKey bestTime rest

/-- `MemoryCache.evictLRU`: delete the scanned key unless it is `""`. -/
def MemoryCache.evictLRU (c : MemoryCache) : MemoryCache :=
  let oldestKey := MemoryCache.lruScan true "" 0 c.data
  if oldestKey ≠ "" then
    { c with data := eraseKey c.data oldestKey, evictions := c.evictions + 1 }
  else c

/-- The scan of `MemoryCache.evictLFU`: `minAccess` starts at the `-1`
sentinel; an entry is taken when the sentinel is still set or its count
is strictly smaller.  There is no tie-break on `lastAccess`. -/
def MemoryCache.lfuScan : Int → Key → List (Key × Item) → Int × Key
  | minAccess, evictKey, [] => (minAccess, evictKey)
  | minAccess, evictKey, (k, it) :: rest =>
    if minAccess = -1 ∨ it.accessCount < minAccess then
      MemoryCache.lfuScan it.accessCount k rest
    else
      MemoryCache.lfuScan minAccess evictKey rest

/-- `MemoryCache.evictLFU`. -/
def MemoryCache.evictLFU (c : MemoryCache) : MemoryCache :=
  let evictKey := (MemoryCache.lfuScan (-1) "" c.data).2
  if evictKey ≠ "" then
    { c with data := eraseKey c.data evictKey, evictions := c.evictions + 1 }
  else c

/-- The scan of `MemoryCache.evictFIFO`: earliest `CreatedAt`. -/
def MemoryCache.fifoScan : Bool → Key → Int → List (Key × Item) → Key
  | _, bestKey, _, [] => bestKey
  | first, bestKey, bestTime, (k, it) :: rest =>
    if first = true ∨ it.createdAt < bestTime then
      MemoryCache.fifoScan false k it.createdAt rest
    else
      MemoryCache.fifoScan false bestKey bestTime rest

/-- `MemoryCache.evictFIFO`. -/
def MemoryCache.evictFIFO (c : MemoryCache) : MemoryCache :=
  let oldestKey := MemoryCache.fifoScan true "" 0 c.data
  if oldestKey ≠ "" then
    { c with data := eraseKey c.data oldestKey, evictions := c.evictions + 1 }
  else c

/-- `MemoryCache.evict`: dispatch on the policy enum; unknown values fall
back to LRU, an empty map evicts nothing. -/
def MemoryCache.evict (c : MemoryCache) : MemoryCache :=
  if c.data.length = 0 then c
  else if c.config.evictionPolicy = LRU then c.evictLRU
  else if c.config.evictionPolicy = LFU then c.evictLFU
  else if c.config.evictionPolicy = FIFO then c.evictFIFO
  else c.evictLRU

/-- `MemoryCache.SetWithTTL` (memory.go).  Note: this engine checks
neither for the empty key nor for a closed cache, and it never returns
an error. -/
def MemoryCache.SetWithTTL (c : MemoryCache) (key : Key) (value : Bytes)
    (ttl : Int) (now : Int) : Option CacheError × MemoryCache :=
  let expiresAt : Int :=
    if 0 < ttl then now + ttl
    else if 0 < c.config.defaultTTL then now + c.config.defaultTTL
    else now + noTTLHorizon
  let c1 :=
    if 0 < c.config.maxSize ∧ c.config.maxSize ≤ (c.data.length : Int) then
      match lookupKey c.data key with
      | some _ => c
      | none => c.evict
    else c
  let item : Item :=
    { value := value, expiresAt := expiresAt, lastAccess := now
      accessCount := 1, createdAt := now }
  (none, { c1 with data := insertKey c1.data key item })

/-- `MemoryCache.Set`. -/
def MemoryCache.Set (c : MemoryCache) (key : Key) (value : Bytes) (now : Int) :
    Option CacheError × MemoryCache :=
  c.SetWithTTL key value c.config.defaultTTL now

/-- `MemoryCache.Delete`. -/
def MemoryCache.Delete (c : MemoryCache) (key : Key) : Bool × MemoryCache :=
  match lookupKey c.data key with
  | some _ => (true, { c with data := eraseKey c.data key })
  | none => (false, c)

/-- `MemoryCache.Clear`. -/
def MemoryCache.Clear (c : MemoryCache) : MemoryCache :=
  { c with data := [], hits := 0, misses := 0, evictions := 0 }

/-- `MemoryCache.Stats`. -/
def MemoryCache.Stats (c : MemoryCache) : Stats :=
  Stats.calculateHitRate
    { hits := c.hits, misses := c.misses, keys := (c.data.length : Int)
      evictions := c.evictions, hitRate := 0 }

/-- `MemoryCache.Close` only closes the stop channel; the data state is
untouched and later mutations are not rejected. -/
def MemoryCache.Close (c : MemoryCache) : MemoryCache := c

/-- `MemoryCache.removeExpired`: the sweep pass of the cleanup goroutine. -/
def MemoryCache.removeExpired (c : MemoryCache) (now : Int) : MemoryCache :=
  let expired := (c.data.filter (fun kv => kv.2.isExpired now)).length
  { c with
    data := c.data.filter (fun kv => !kv.2.isExpired now)
    evictions := if 0 < expired then c.evictions + (expired : Int) else c.evictions }

/-! ### The unbounded engine: `SimpleCache` (memory/simple.go) -/

/-- Per-entry record of the unbounded engine; `none` is the zero
`time.Time` (no expiry). -/
structure SimpleItem where
  value : Bytes
  expiresAt : Option Int
deriving DecidableEq

/-- `simpleItem.isExpired`: `!expiresAt.IsZero() && now.After(expiresAt)`. -/
def SimpleItem.isExpired (item : SimpleItem) (now : Int) : Bool :=
  match item.expiresAt with
  | none => false
  | some t => decide (t < now)

structure SimpleCache where
  items : List (Key × SimpleItem)
  defaultTTL : Int
  closed : Bool
  hits : Int
  misses : Int
deriving DecidableEq

/-- `NewSimpleWithTTL`. -/
def NewSimpleWithTTL (defaultTTL : Int) : SimpleCache :=
  { items := [], defaultTTL := defaultTTL, closed := false, hits := 0, misses := 0 }

/-- `NewSimple`. -/
def NewSimple : SimpleCache := NewSimpleWithTTL 0

/-- `SimpleCache.Get` (memory/simple.go).  The expiry branch re-checks
under the exclusive lock with `if item, exists := c.items[key]; ...`,
*shadowing* both variables: the deletion happens, but the inner
`exists = false` dies with its scope, the outer `exists` is still true,
and control falls through to the hit path with the stale `item`. -/
def SimpleCache.Get (c : SimpleCache) (key : Key) (now : Int) :
    Option Bytes × SimpleCache :=
  if key = "" then (none, { c with misses := c.misses + 1 })
  else
    match lookupKey c.items key with
    | none => (none, { c with misses := c.misses + 1 })
    | some item =>
      if item.isExpired now then
        let items1 :=
          match lookupKey c.items key with
          | some item2 => if item2.isExpired now then eraseKey c.items key else c.items
          | none => c.items
        (some item.value, { c with items := items1, hits := c.hits + 1 })
      else
        (some item.value, { c with hits := c.hits + 1 })

/-- `SimpleCache.SetWithTTL`. -/
def SimpleCache.SetWithTTL (c : SimpleCache) (key : Key) (value : Bytes)
    (ttl : Int) (now : Int) : Option CacheError × SimpleCache :=
  if key = "" then (some .keyEmpty, c)
  else if c.closed then (some .cacheClosed, c)
  else
    let expiresAt : Option Int :=
      if 0 < ttl then some (now + ttl)
      else if 0 < c.defaultTTL then some (now + c.defaultTTL)
      else none
    (none, { c with items := insertKey c.items key { value := value, expiresAt := expiresAt } })

/-- `SimpleCache.Set`. -/
def SimpleCache.Set (c : SimpleCache) (key : Key) (value : Bytes) (now : Int) :
    Option CacheError × SimpleCache :=
  c.SetWithTTL key value c.defaultTTL now

/-- `SimpleCache.Delete`. -/
def SimpleCache.Delete (c : SimpleCache) (key : Key) : Bool × SimpleCache :=
  if key = "" then (false, c)
  else
    match lookupKey c.items key with
    | some _ => (true, { c with items := eraseKey c.items key })
    | none => (false, c)

/-- `SimpleCache.Clear`. -/
def SimpleCache.Clear (c : SimpleCache) : SimpleCache :=
  { c with items := [], hits := 0, misses := 0 }

/-- `SimpleCache.Stats`: this engine performs no capacity eviction and
reports a constant `0` in the `Evictions` field. -/
def SimpleCache.Stats (c : SimpleCache) : Stats :=
  Stats.calculateHitRate
    { hits := c.hits, misses := c.misses, keys := (c.items.length : Int)
      evictions := 0, hitRate := 0 }

/-- `SimpleCache.Close`. -/
def SimpleCache.Close (c : SimpleCache) : SimpleCache :=
  if c.closed then c else { c with closed := true }

/-- Keys of the expired entries, in iteration order (the first pass of
the memory-package `removeExpired` sweeps). -/
def expiredKeysOf {α : Type} (isExp : α → Int → Bool)
    (items : List (Key × α)) (now : Int) : List Key :=
  (items.filter (fun kv => isExp kv.2 now)).map Prod.fst

/-- Second pass of the sweeps: delete the collected keys one by one. -/
def eraseAllKeys {α : Type} (l : List (Key × α)) (ks : List Key) : List (Key × α) :=
  ks.foldl eraseKey l

/-- `SimpleCache.removeExpired`: deletes the expired entries and touches
no statistics counter at all. -/
def SimpleCache.removeExpired (c : SimpleCache) (now : Int) : SimpleCache :=
  { c with items := eraseAllKeys c.items (expiredKeysOf SimpleItem.isExpired c.items now) }

/-! ### The recency-ordered engine: `LRUCache` (memory/lru.go) -/

structure LRUItem where
  value : Bytes
  expiresAt : Option Int
deriving DecidableEq

/-- `lruItem.isExpired`. -/
def LRUItem.isExpired (item : LRUItem) (now : Int) : Bool :=
  match item.expiresAt with
  | none => false
  | some t => decide (t < now)

/-- State of the LRU engine.  `order` is the intrusive doubly linked
list as its key sequence, head (most recently used) first. -/
structure LRUCache where
  items : List (Key × LRUItem)
  order : List Key
  maxSize : Int
  defaultTTL : Int
  closed : Bool
  hits : Int
  misses : Int
  evictions : Int
deriving DecidableEq

/-- `NewLRUWithTTL`: a non-positive `maxSize` is coerced to `1000`. -/
def NewLRUWithTTL (maxSize : Int) (defaultTTL : Int) : LRUCache :=
  let m := if maxSize ≤ 0 then 1000 else maxSize
  { items := [], order := [], maxSize := m, defaultTTL := defaultTTL
    closed := false, hits := 0, misses := 0, evictions := 0 }

/-- `NewLRU`. -/
def NewLRU (maxSize : Int) : LRUCache := NewLRUWithTTL maxSize 0

/-- `moveToHead`: unlink the node and relink it at the head. -/
def moveToHead (key : Key) (order : List Key) : List Key :=
  key :: order.erase key

/-- `LRUCache.evictTail`: unlink `tail.prev` unless the list is empty,
delete its key from the map, and count one eviction. -/
def LRUCache.evictTail (c : LRUCache) : LRUCache :=
  match c.order.getLast? with
  | none => c
  | some k =>
    { c with items := eraseKey c.items k, order := c.order.dropLast
             evictions := c.evictions + 1 }

/-- `LRUCache.Get` (memory/lru.go): on an expired entry, remove it and
count a miss; on a hit, move the node to the head and copy the value. -/
def LRUCache.Get (c : LRUCache) (key : Key) (now : Int) :
    Option Bytes × LRUCache :=
  if key = "" then (none, { c with misses := c.misses + 1 })
  else
    match lookupKey c.items key with
    | none => (none, { c with misses := c.misses + 1 })
    | some item =>
      if item.isExpired now then
        (none, { c with items := eraseKey c.items key, order := c.order.erase key
                        misses := c.misses + 1 })
      else
        (some item.value, { c with order := moveToHead key c.order, hits := c.hits + 1 })

/-- `LRUCache.SetWithTTL` (memory/lru.go): overwrite updates the entry
in place and moves it to the head; a new key first evicts the tail when
the cache is full, then is linked at the head. -/
def LRUCache.SetWithTTL (c : LRUCache) (key : Key) (value : Bytes)
    (ttl : Int) (now : Int) : Option CacheError × LRUCache :=
  if key = "" then (some .keyEmpty, c)
  else if c.closed then (some .cacheClosed, c)
  else
    let expiresAt : Option Int :=
      if 0 < ttl then some (now + ttl)
      else if 0 < c.defaultTTL then some (now + c.defaultTTL)
      else none
    match lookupKey c.items key with
    | some _ =>
      (none, { c with items := insertKey c.items key { value := value, expiresAt := expiresAt }
                      order := moveToHead key c.order })
    | none =>
      let c1 := if c.maxSize ≤ (c.items.length : Int) then c.evictTail else c
      (none, { c1 with
                 items := insertKey c1.items key { value := value, expiresAt := expiresAt }
                 order := key :: c1.order })

/-- `LRUCache.Set`. -/
def LRUCache.Set (c : LRUCache) (key : Key) (value : Bytes) (now : Int) :
    Option CacheError × LRUCache :=
  c.SetWithTTL key value c.defaultTTL now

/-- `LRUCache.Delete`. -/
def LRUCache.Delete (c : LRUCache) (key : Key) : Bool × LRUCache :=
  if key = "" then (false, c)
  else
    match lookupKey c.items key with
    | some _ =>
      (true, { c with items := eraseKey c.items key, order := c.order.erase key })
    | none => (false, c)

/-- `LRUCache.Clear`. -/
def LRUCache.Clear (c : LRUCache) : LRUCache :=
  { c with items := [], order := [], hits := 0, misses := 0, evictions := 0 }

/-- `LRUCache.Stats`. -/
def LRUCache.Stats (c : LRUCache) : Stats :=
  Stats.calculateHitRate
    { hits := c.hits, misses := c.misses, keys := (c.items.length : Int)
      evictions := c.evictions, hitRate := 0 }

/-- `LRUCache.Close`. -/
def LRUCache.Close (c : LRUCache) : LRUCache :=
  if c.closed then c else { c with closed := true }

/-- `LRUCache.removeExpired`: collect the expired keys, then `removeItem`
each (map delete + unlink), then add the count to the eviction counter. -/
def LRUCache.removeExpired (c : LRUCache) (now : Int) : LRUCache :=
  let ks := expiredKeysOf LRUItem.isExpired c.items now
  let step := fun (s : List (Key × LRUItem) × List Key) (k : Key) =>
    match lookupKey s.1 k with
    | some _ => (eraseKey s.1 k, s.2.erase k)
    | none => s
  let res := ks.foldl step (c.items, c.order)
  { c with items := res.1, order := res.2
           evictions := if 0 < ks.length then c.evictions + (ks.length : Int) else c.evictions }

/-! ### The frequency-ordered engine: `LFUCache` -/

structure LFUItem where
  value : Bytes
  expiresAt : Option Int
  frequency : Int
  lastAccess : Int
deriving DecidableEq

/-- `lfuItem.isExpired`. -/
def LFUItem.isExpired (item : LFUItem) (now : Int) : Bool :=
  match item.expiresAt with
  | none => false
  | some t => decide (t < now)

/-- `lfuItem.touch`. -/
def LFUItem.touch (item : LFUItem) (now : Int) : LFUItem :=
  { item with frequency := item.frequency + 1, lastAccess := now }

structure LFUCache where
  items : List (Key × LFUItem)
  maxSize : Int
  defaultTTL : Int
  closed : Bool
  hits : Int
  misses : Int
  evictions : Int
deriving DecidableEq

/-- `NewLFUWithTTL`: a non-positive `maxSize` is coerced to `1000`. -/
def NewLFUWithTTL (maxSize : Int) (defaultTTL : Int) : LFUCache :=
  let m := if maxSize ≤ 0 then 1000 else maxSize
  { items := [], maxSize := m, defaultTTL := defaultTTL
    closed := false, hits := 0, misses := 0, evictions := 0 }

/-- `NewLFU`. -/
def NewLFU (maxSize : Int) : LFUCache := NewLFUWithTTL maxSize 0

/-- `LFUCache.Get`: expired entries are deleted under the same lock; a
hit touches the entry (frequency + 1, fresh `lastAccess`). -/
def LFUCache.Get (c : LFUCache) (key : Key) (now : Int) :
    Option Bytes × LFUCache :=
  if key = "" then (none, { c with misses := c.misses + 1 })
  else
    match lookupKey c.items key with
    | none => (none, { c with misses := c.misses + 1 })
    | some item =>
      if item.isExpired now then
        (none, { c with items := eraseKey c.items key, misses := c.misses + 1 })
      else
        (some item.value,
         { c with items := insertKey c.items key (item.touch now), hits := c.hits + 1 })

/-- The scan of `LFUCache.evictLFU`: `minFrequency` starts at the `-1`
sentinel; an entry is taken when the sentinel is still set, its
frequency is strictly smaller, or its frequency ties and its
`lastAccess` is strictly earlier. -/
def LFUCache.lfuScan : Int → Key → Int → List (Key × LFUItem) → Int × Key × Int
  | minFreq, evictKey, oldest, [] => (minFreq, evictKey, oldest)
  | minFreq, evictKey, oldest, (k, it) :: rest =>
    if minFreq = -1 ∨ it.frequency < minFreq ∨
        (it.frequency = minFreq ∧ it.lastAccess < oldest) then
      LFUCache.lfuScan it.frequency k it.lastAccess rest
    else
      LFUCache.lfuScan minFreq evictKey oldest rest

/-- `LFUCache.evictLFU`. -/
def LFUCache.evictLFU (c : LFUCache) : LFUCache :=
  if c.items.length = 0 then c
  else
    let evictKey := (LFUCache.lfuScan (-1) "" 0 c.items).2.1
    if evictKey ≠ "" then
      { c with items := eraseKey c.items evictKey, evictions := c.evictions + 1 }
    else c

/-- `LFUCache.SetWithTTL`: overwrite updates value, expiry and
`lastAccess` in place (the frequency is kept); a new key evicts first
when the cache is full and starts with frequency `1`. -/
def LFUCache.SetWithTTL (c : LFUCache) (key : Key) (value : Bytes)
    (ttl : Int) (now : Int) : Option CacheError × LFUCache :=
  if key = "" then (some .keyEmpty, c)
  else if c.closed then (some .cacheClosed, c)
  else
    let expiresAt : Option Int :=
      if 0 < ttl then some (now + ttl)
      else if 0 < c.defaultTTL then some (now + c.defaultTTL)
      else none
    match lookupKey c.items key with
    | some item =>
      let updated : LFUItem :=
        { item with value := value, expiresAt := expiresAt, lastAccess := now }
      (none, { c with items := insertKey c.items key updated })
    | none =>
      let c1 := if c.maxSize ≤ (c.items.length : Int) then c.evictLFU else c
      let fresh : LFUItem :=
        { value := value, expiresAt := expiresAt, frequency := 1, lastAccess := now }
      (none, { c1 with items := insertKey c1.items key fresh })

/-- `LFUCache.Set`. -/
def LFUCache.Set (c : LFUCache) (key : Key) (value : Bytes) (now : Int) :
    Option CacheError × LFUCache :=
  c.SetWithTTL key value c.defaultTTL now

/-- `LFUCache.Delete`. -/
def LFUCache.Delete (c : LFUCache) (key : Key) : Bool × LFUCache :=
  if key = "" then (false, c)
  else
    match lookupKey c.items key with
    | some _ => (true, { c with items := eraseKey c.items key })
    | none => (false, c)

/-- `LFUCache.Clear`. -/
def LFUCache.Clear (c : LFUCache) : LFUCache :=
  { c with items := [], hits := 0, misses := 0, evictions := 0 }

/-- `LFUCache.Stats`. -/
def LFUCache.Stats (c : LFUCache) : Stats :=
  Stats.calculateHitRate
    { hits := c.hits, misses := c.misses, keys := (c.items.length : Int)
      evictions := c.evictions, hitRate := 0 }

/-- `LFUCache.Close`. -/
def LFUCache.Close (c : LFUCache) : LFUCache :=
  if c.closed then c else { c with closed := true }

/-- `LFUCache.removeExpired`. -/
def LFUCache.removeExpired (c : LFUCache) (now : Int) : LFUCache :=
  let ks := expiredKeysOf LFUItem.isExpired c.items now
  { c with items := eraseAllKeys c.items ks
           evictions := if 0 < ks.length then c.evictions + (ks.length : Int) else c.evictions }

/-! ### Slice identity: the copy discipline at the engine boundary

Every engine runs the same two lines on both sides of the boundary:
`valueCopy := make([]byte, len(value)); copy(valueCopy, value)` on
`set`, and the same on the value returned by `get`.  The heap model
gives byte slices an identity so that aliasing is expressible. -/

structure Heap where
  cells : List Bytes
deriving DecidableEq

/-- The bytes behind a slice reference. -/
def Heap.read (h : Heap) (a : Nat) : Bytes := h.cells.getD a []

/-- `make([]byte, ...)`: a fresh slice, never aliasing an existing one. -/
def Heap.alloc (h : Heap) (bs : Bytes) : Heap × Nat :=
  (⟨h.cells ++ [bs]⟩, h.cells.length)

/-- In-place mutation of the bytes behind a slice reference. -/
def Heap.write (h : Heap) (a : Nat) (bs : Bytes) : Heap :=
  ⟨h.cells.set a bs⟩

/-- `valueCopy := make([]byte, len(value)); copy(valueCopy, value)`. -/
def copySlice (h : Heap) (src : Nat) : Heap × Nat :=
  h.alloc (h.read src)

/-! ### Association-list lemmas -/

theorem lookupKey_insertKey_self {α : Type} (l : List (Key × α)) (k : Key) (v : α) :
    lookupKey (insertKey l k v) k = some v := by
  induction l with
  | nil => simp [insertKey, lookupKey]
  | cons kv rest ih =>
    by_cases h : kv.1 = k
    · simp [insertKey, h, lookupKey]
    · simp [insertKey, h, lookupKey, ih]

theorem lookupKey_insertKey_ne {α : Type} (l : List (Key × α)) (k k' : Key) (v : α)
    (h : k ≠ k') : lookupKey (insertKey l k v) k' = lookupKey l k' := by
  induction l with
  | nil => simp [insertKey, lookupKey, h]
  | cons kv rest ih =>
    by_cases hk : kv.1 = k
    · simp [insertKey, hk, lookupKey, h]
    · simp [insertKey, hk, lookupKey, ih]

theorem lookupKey_eraseKey_ne {α : Type} (l : List (Key × α)) (k k' : Key)
    (h : k ≠ k') : lookupKey (eraseKey l k) k' = lookupKey l k' := by
  induction l with
  | nil => simp [eraseKey]
  | cons kv rest ih =>
    by_cases hk : kv.1 = k
    · have hne : kv.1 ≠ k' := by rw [hk]; exact h
      simp [eraseKey, hk, lookupKey, hne, h]
    · simp [eraseKey, hk, lookupKey, ih]

theorem lookupKey_eraseKey_none {α : Type} (l : List (Key × α)) (k k' : Key)
    (h : lookupKey l k' = none) : lookupKey (eraseKey l k) k' = none := by
  induction l with
  | nil => simp [eraseKey, lookupKey]
  | cons kv rest ih =>
    by_cases hh : kv.1 = k'
    · simp [lookupKey, hh] at h
    · simp [lookupKey, hh] at h
      by_cases hk : kv.1 = k
      · simpa [eraseKey, hk]
      · simp [eraseKey, hk, lookupKey, hh, ih h]

theorem length_insertKey_of_none {α : Type} (l : List (Key × α)) (k : Key) (v : α)
    (h : lookupKey l k = none) : (insertKey l k v).length = l.length + 1 := by
  induction l with
  | nil => simp [insertKey]
  | cons kv rest ih =>
    by_cases hk : kv.1 = k
    · simp [lookupKey, hk] at h
    · simp [lookupKey, hk] at h
      simp [insertKey, hk, ih h]

theorem length_insertKey_of_some {α : Type} (l : List (Key × α)) (k : Key) (v w : α)
    (h : lookupKey l k = some w) : (insertKey l k v).length = l.length := by
  induction l with
  | nil => simp [lookupKey] at h
  | cons kv rest ih =>
    by_cases hk : kv.1 = k
    · simp [insertKey, hk]
    · simp [lookupKey, hk] at h
      simp [insertKey, hk, ih h]

theorem length_eraseKey_of_some {α : Type} (l : List (Key × α)) (k : Key) (w : α)
    (h : lookupKey l k = some w) : (eraseKey l k).length + 1 = l.length := by
  induction l with
  | nil => simp [lookupKey] at h
  | cons kv rest ih =>
    by_cases hk : kv.1 = k
    · simp [eraseKey, hk]
    · simp [lookupKey, hk] at h
      simp [eraseKey, hk, ih h]

theorem lookupKey_eq_none_of_not_mem_keys {α : Type} (l : List (Key × α)) (k : Key)
    (h : k ∉ l.map Prod.fst) : lookupKey l k = none := by
  induction l with
  | nil => simp [lookupKey]
  | cons kv rest ih =>
    simp only [List.map_cons, List.mem_cons] at h
    push_neg at h
    have hk : kv.1 ≠ k := fun e => h.1 e.symm
    simp [lookupKey, hk, ih h.2]

theorem mem_keys_of_lookupKey_some {α : Type} (l : List (Key × α)) (k : Key) (w : α)
    (h : lookupKey l k = some w) : k ∈ l.map Prod.fst := by
  induction l with
  | nil => simp [lookupKey] at h
  | cons kv rest ih =>
    by_cases hk : kv.1 = k
    · simp [hk]
    · simp [lookupKey, hk] at h
      simp [ih h]

theorem mem_of_lookupKey_some {α : Type} (l : List (Key × α)) (k : Key) (w : α)
    (h : lookupKey l k = some w) : (k, w) ∈ l := by
  induction l with
  | nil => simp [lookupKey] at h
  | cons kv rest ih =>
    obtain ⟨k1, v1⟩ := kv
    by_cases hk : k1 = k
    · subst hk
      have hv : v1 = w := by simpa [lookupKey] using h
      subst hv
      exact List.mem_cons_self _ _
    · simp [lookupKey, hk] at h
      exact List.mem_cons_of_mem _ (ih h)

theorem lookupKey_eq_some_of_mem {α : Type} (l : List (Key × α)) (k : Key) (w : α)
    (hnd : (l.map Prod.fst).Nodup) (h : (k, w) ∈ l) : lookupKey l k = some w := by
  induction l with
  | nil => simp at h
  | cons kv rest ih =>
    simp only [List.map_cons, List.nodup_cons] at hnd
    rcases List.mem_cons.mp h with h1 | h2
    · rw [← h1]
      simp [lookupKey]
    · have hk : kv.1 ≠ k := by
        intro e
        exact hnd.1 (e ▸ (List.mem_map.mpr ⟨(k, w), h2, rfl⟩))
      simp [lookupKey, hk, ih hnd.2 h2]

theorem keys_insertKey_of_none {α : Type} (l : List (Key × α)) (k : Key) (v : α)
    (h : lookupKey l k = none) :
    (insertKey l k v).map Prod.fst = l.map Prod.fst ++ [k] := by
  induction l with
  | nil => simp [insertKey]
  | cons kv rest ih =>
    by_cases hk : kv.1 = k
    · simp [lookupKey, hk] at h
    · simp [lookupKey, hk] at h
      simp [insertKey, hk, ih h]

theorem keys_eraseKey_sublist {α : Type} (l : List (Key × α)) (k : Key) :
    ((eraseKey l k).map Prod.fst).Sublist (l.map Prod.fst) := by
  induction l with
  | nil => simp [eraseKey]
  | cons kv rest ih =>
    by_cases hk : kv.1 = k
    · simp only [eraseKey, hk, if_pos]
      exact (List.sublist_cons_self _ _)
    · simp only [eraseKey, hk, if_neg, List.map_cons]
      exact ih.cons₂ _

theorem nodup_keys_eraseKey {α : Type} (l : List (Key × α)) (k : Key)
    (h : (l.map Prod.fst).Nodup) : ((eraseKey l k).map Prod.fst).Nodup :=
  (keys_eraseKey_sublist l k).nodup h

theorem lookupKey_eraseKey_self {α : Type} (l : List (Key × α)) (k : Key)
    (hnd : (l.map Prod.fst).Nodup) : lookupKey (eraseKey l k) k = none := by
  induction l with
  | nil => simp [eraseKey, lookupKey]
  | cons kv rest ih =>
    simp only [List.map_cons, List.nodup_cons] at hnd
    by_cases hk : kv.1 = k
    · have he : eraseKey (kv :: rest) k = rest := by simp [eraseKey, hk]
      rw [he]
      apply lookupKey_eq_none_of_not_mem_keys
      rw [← hk]
      exact hnd.1
    · simp [eraseKey, hk, lookupKey, ih hnd.2]

/-- Behaviour of a fold of map-deletes over a list of keys. -/
theorem lookupKey_eraseAllKeys {α : Type} (ks : List Key) (l : List (Key × α)) (k : Key)
    (hnd : (l.map Prod.fst).Nodup) :
    lookupKey (eraseAllKeys l ks) k = if k ∈ ks then none else lookupKey l k := by
  induction ks generalizing l with
  | nil => simp [eraseAllKeys]
  | cons k0 rest ih =>
    have h1 : eraseAllKeys l (k0 :: rest) = eraseAllKeys (eraseKey l k0) rest := rfl
    rw [h1, ih (eraseKey l k0) (nodup_keys_eraseKey l k0 hnd)]
    by_cases hm : k ∈ rest
    · simp [hm]
    · by_cases hk : k = k0
      · simp [hm, hk, lookupKey_eraseKey_self l k0 hnd]
      · simp [hm, hk, lookupKey_eraseKey_ne l k0 k (fun e => hk e.symm)]

/-- Membership in the collected expired-key list. -/
theorem mem_expiredKeysOf {α : Type} (isExp : α → Int → Bool)
    (l : List (Key × α)) (now : Int) (k : Key)
    (hnd : (l.map Prod.fst).Nodup) :
    k ∈ expiredKeysOf isExp l now ↔
      ∃ it, lookupKey l k = some it ∧ isExp it now = true := by
  constructor
  · intro h
    rcases List.mem_map.mp h with ⟨kv, hmem, hfst⟩
    rcases List.mem_filter.mp hmem with ⟨hin, hexp⟩
    refine ⟨kv.2, ?_, hexp⟩
    subst hfst
    exact lookupKey_eq_some_of_mem l kv.1 kv.2 hnd hin
  · rintro ⟨it, hl, hexp⟩
    exact List.mem_map.mpr ⟨(k, it),
      List.mem_filter.mpr ⟨mem_of_lookupKey_some l k it hl, hexp⟩, rfl⟩

theorem lookupKey_filter {α : Type} (p : Key × α → Bool) (l : List (Key × α)) (k : Key)
    (hnd : (l.map Prod.fst).Nodup) :
    lookupKey (l.filter p) k =
      match lookupKey l k with
      | some it => if p (k, it) then some it else none
      | none => none := by
  induction l with
  | nil => simp [lookupKey]
  | cons kv rest ih =>
    simp only [List.map_cons, List.nodup_cons] at hnd
    by_cases hk : kv.1 = k
    · subst hk
      have hrest : lookupKey rest kv.1 = none :=
        lookupKey_eq_none_of_not_mem_keys rest kv.1 hnd.1
      by_cases hp : p kv
      · simp [List.filter_cons, hp, lookupKey]
      · have hfil : lookupKey (rest.filter p) kv.1 = none := by
          apply lookupKey_eq_none_of_not_mem_keys
          intro hmem
          exact hnd.1 (List.map_subset Prod.fst (List.filter_subset' rest) hmem)
        simp [List.filter_cons, hp, lookupKey, hfil, hrest]
      -- the `cases` on `p kv` covers the head both kept and dropped
    · by_cases hp : p kv
      · simp [List.filter_cons, hp, lookupKey, hk, ih hnd.2]
      · simp [List.filter_cons, hp, lookupKey, hk, ih hnd.2]

/-! ### Heap lemmas: the copy discipline -/

theorem copySlice_fresh (h : Heap) (p : Nat) (hp : p < h.cells.length) :
    (copySlice h p).2 ≠ p := by
  simp only [copySlice, Heap.alloc]
  omega

theorem Heap.read_write_ne (h : Heap) (a b : Nat) (bs : Bytes) (hne : a ≠ b) :
    (h.write a bs).read b = h.read b := by
  simp [Heap.write, Heap.read, List.getD, List.get?_eq_getElem?, hne]

theorem copySlice_read (h : Heap) (p : Nat) :
    (copySlice h p).1.read (copySlice h p).2 = h.read p := by
  simp [copySlice, Heap.alloc, Heap.read, List.getD_append_right, le_refl]

/-! ### Concrete scenarios used by individual claims -/

/-- Dedicated LRU engine, capacity 3, after inserting A, B, C. -/
def lruABC : LRUCache :=
  ((((NewLRU 3).Set "A" [1] 1).2.Set "B" [2] 2).2.Set "C" [3] 3).2

/-- ... then reading A and inserting D. -/
def lruABCD : LRUCache :=
  (((lruABC.Get "A" 4).2).Set "D" [4] 5).2

/-- Configurable engine under the LRU policy, capacity 3, after
inserting A, B, C. -/
def memABC : MemoryCache :=
  let c0 := NewMemoryCache
    { maxSize := 3, defaultTTL := 0, cleanupInterval := 0, evictionPolicy := LRU }
  (((c0.Set "A" [1] 1).2.Set "B" [2] 2).2.Set "C" [3] 3).2

/-- ... then reading A and inserting D. -/
def memABCD : MemoryCache :=
  (((memABC.Get "A" 4).2).Set "D" [4] 5).2

/-- Unbounded engine with a single entry written at instant 0 with
TTL 5 — expired at any instant after 5. -/
def simpleExpired : SimpleCache := (NewSimple.SetWithTTL "k" [7] 5 0).2

/-- Configurable engine, capacity 1, LRU policy, after `set("", …)` and
then `set("x", …)`. -/
def memEmptyKeyFull : MemoryCache :=
  let c0 := NewMemoryCache
    { maxSize := 1, defaultTTL := 0, cleanupInterval := 0, evictionPolicy := LRU }
  ((c0.SetWithTTL "" [1] 0 1).2.SetWithTTL "x" [2] 0 2).2

/-- Configurable engine, capacity 2, LFU policy, after `set a` at 1,
`set b` at 2 and an overwriting `set a` at 3: both entries have access
count 1, `b` has the strictly smaller `lastAccess`. -/
def memLFUTie : MemoryCache :=
  let c0 := NewMemoryCache
    { maxSize := 2, defaultTTL := 0, cleanupInterval := 0, evictionPolicy := LFU }
  (((c0.SetWithTTL "a" [1] 0 1).2.SetWithTTL "b" [2] 0 2).2.SetWithTTL "a" [3] 0 3).2

/-- ... then the triggering insert of the new key `c`. -/
def memLFUTieAfter : MemoryCache := (memLFUTie.SetWithTTL "c" [4] 0 4).2

/-- Configurable engine after `set k`, a hit on `k`, and an overwriting
`set k` (capacity 3, LRU policy). -/
def memOverwriteMid : MemoryCache := ((memABC.Set "k" [1] 4).2.Get "k" 5).2

/-- ... after the overwrite. -/
def memOverwriteEnd : MemoryCache := (memOverwriteMid.Set "k" [9] 6).2

/-! ### Claim C8 — LRU eviction order -/

/-- Claim C8: under the LRU policy with capacity 3, inserting A, B, C in
that order, then a successful `get(A)`, then inserting the new key D
evicts exactly B, and A, C and D remain retrievable.  Shown both for the
dedicated LRU engine (linked list) and for the configurable engine under
the LRU policy (`lastAccess` scan). -/
theorem C8_lru_order :
    (lruABC.Get "A" 4).1 = some [1] ∧
    lookupKey lruABCD.items "B" = none ∧
    lruABCD.evictions = 1 ∧
    (lruABCD.Get "A" 6).1 = some [1] ∧
    (lruABCD.Get "C" 6).1 = some [3] ∧
    (lruABCD.Get "D" 6).1 = some [4] ∧
    (memABC.Get "A" 4).1 = some [1] ∧
    lookupKey memABCD.data "B" = none ∧
    memABCD.evictions = 1 ∧
    (memABCD.Get "A" 6).1 = some [1] ∧
    (memABCD.Get "C" 6).1 = some [3] ∧
    (memABCD.Get "D" 6).1 = some [4] := by
  decide

/-! ### Claim C4 — expiry on read -/

/-- Claim C4 (failing input): on the unbounded engine, the very first
`get` after the TTL has elapsed *returns the expired value with `true`
and records a hit* — the inner re-check deletes the entry but assigns
the shadowed `exists`, so the outer flow falls through to the hit path.
The entry is removed, yet the caller observes the value after its TTL. -/
theorem C4_simple_expired_get_returns_stale :
    (simpleExpired.Get "k" 10).1 = some [7] ∧
    (simpleExpired.Get "k" 10).2.hits = 1 ∧
    (simpleExpired.Get "k" 10).2.misses = 0 ∧
    lookupKey (simpleExpired.Get "k" 10).2.items "k" = none := by
  decide

/-! ### Claim C2 — KeyEmpty / CacheClosed on set -/

/-- Claim C2 (counterexample): the configurable engine checks neither
the empty key nor the closed flag: `SetWithTTL("")` returns no error and
inserts a binding for `""`, and a set after `Close` also returns no
error. -/
theorem C2_mem_no_error_checks :
    ((NewMemoryCache DefaultConfig).SetWithTTL "" [1] 0 0).1 = none ∧
    ((NewMemoryCache DefaultConfig).SetWithTTL "" [1] 0 0).2.data.length = 1 ∧
    (((NewMemoryCache DefaultConfig).Close).SetWithTTL "x" [1] 0 0).1 = none := by
  decide

/-- Claim C2 (amended): the three memory-package engines fail with
`KeyEmpty` on the empty key without mutating anything, fail with
`CacheClosed` once closed, and return no error otherwise; the
configurable engine performs neither check and never returns an error. -/
theorem C2_set_error_contract :
    (∀ (c : SimpleCache) (k : Key) (v : Bytes) (ttl : Int) (now : Int),
      (k = "" → c.SetWithTTL k v ttl now = (some CacheError.keyEmpty, c)) ∧
      (k ≠ "" → c.closed = true → c.SetWithTTL k v ttl now = (some CacheError.cacheClosed, c)) ∧
      (k ≠ "" → c.closed = false → (c.SetWithTTL k v ttl now).1 = none)) ∧
    (∀ (c : LRUCache) (k : Key) (v : Bytes) (ttl : Int) (now : Int),
      (k = "" → c.SetWithTTL k v ttl now = (some CacheError.keyEmpty, c)) ∧
      (k ≠ "" → c.closed = true → c.SetWithTTL k v ttl now = (some CacheError.cacheClosed, c)) ∧
      (k ≠ "" → c.closed = false → (c.SetWithTTL k v ttl now).1 = none)) ∧
    (∀ (c : LFUCache) (k : Key) (v : Bytes) (ttl : Int) (now : Int),
      (k = "" → c.SetWithTTL k v ttl now = (some CacheError.keyEmpty, c)) ∧
      (k ≠ "" → c.closed = true → c.SetWithTTL k v ttl now = (some CacheError.cacheClosed, c)) ∧
      (k ≠ "" → c.closed = false → (c.SetWithTTL k v ttl now).1 = none)) ∧
    (∀ (c : MemoryCache) (k : Key) (v : Bytes) (ttl : Int) (now : Int),
      (c.SetWithTTL k v ttl now).1 = none) := by
  refine ⟨?_, ?_, ?_, ?_⟩
  · intro c k v ttl now
    refine ⟨fun hk => ?_, fun hk hc => ?_, fun hk hc => ?_⟩
    · simp [SimpleCache.SetWithTTL, hk]
    · simp [SimpleCache.SetWithTTL, hk, hc]
    · simp only [SimpleCache.SetWithTTL, hk, hc]
      simp
  · intro c k v ttl now
    refine ⟨fun hk => ?_, fun hk hc => ?_, fun hk hc => ?_⟩
    · simp [LRUCache.SetWithTTL, hk]
    · simp [LRUCache.SetWithTTL, hk, hc]
    · simp only [LRUCache.SetWithTTL, hk, hc]
      rcases hl : lookupKey c.items k with _ | it <;> simp [hl]
  · intro c k v ttl now
    refine ⟨fun hk => ?_, fun hk hc => ?_, fun hk hc => ?_⟩
    · simp [LFUCache.SetWithTTL, hk]
    · simp [LFUCache.SetWithTTL, hk, hc]
    · simp only [LFUCache.SetWithTTL, hk, hc]
      rcases hl : lookupKey c.items k with _ | it <;> simp [hl]
  · intro c k v ttl now
    simp [MemoryCache.SetWithTTL]

/-- Witness for C2_set_error_contract at concrete inputs. -/
theorem C2_set_error_contract_witness :
    ("" : Key) = "" ∧
    (NewSimple.SetWithTTL "" [1] 0 0 = (some CacheError.keyEmpty, NewSimple)) ∧
    ("x" : Key) ≠ "" ∧ (NewLRU 3).Close.closed = true ∧
    ((NewLRU 3).Close.SetWithTTL "x" [1] 0 0 =
      (some CacheError.cacheClosed, (NewLRU 3).Close)) ∧
    ((NewLFU 3).SetWithTTL "x" [1] 0 0).1 = none ∧
    ((NewMemoryCache DefaultConfig).SetWithTTL "x" [1] 0 0).1 = none := by
  refine ⟨rfl, ?_, by decide, by decide, ?_, ?_, ?_⟩
  · exact (C2_set_error_contract.1 NewSimple "" [1] 0 0).1 rfl
  · exact (C2_set_error_contract.2.1 ((NewLRU 3).Close) "x" [1] 0 0).2.1 (by decide) (by decide)
  · exact (C2_set_error_contract.2.2.1 (NewLFU 3) "x" [1] 0 0).2.2 (by decide) (by decide)
  · exact C2_set_error_contract.2.2.2 (NewMemoryCache DefaultConfig) "x" [1] 0 0

/-! ### Claim C7 — frequency counter -/

/-- Claim C7 (counterexample): on the configurable engine an overwrite
replaces the whole entry, resetting the access counter from 2 back
to 1 — the counter is not monotone while the key stays resident. -/
theorem C7_mem_overwrite_resets_counter :
    (lookupKey memOverwriteMid.data "k").map Item.accessCount = some 2 ∧
    (lookupKey memOverwriteEnd.data "k").map Item.accessCount = some 1 := by
  decide

/-- Claim C7 (amended): on the dedicated LFU engine every successful
`get` increments the frequency by exactly one, and an overwriting set
updates only value, expiry and `lastAccess`, keeping the frequency; on
the configurable engine an overwrite resets the counter to 1. -/
theorem C7_frequency_contract :
    (∀ (c : LFUCache) (k : Key) (now : Int) (it : LFUItem),
      k ≠ "" → lookupKey c.items k = some it → it.isExpired now = false →
      lookupKey ((c.Get k now).2).items k =
        some { it with frequency := it.frequency + 1, lastAccess := now }) ∧
    (∀ (c : LFUCache) (k : Key) (v : Bytes) (ttl : Int) (now : Int) (it : LFUItem),
      k ≠ "" → c.closed = false → lookupKey c.items k = some it →
      lookupKey ((c.SetWithTTL k v ttl now).2).items k =
        some { it with
                 value := v
                 expiresAt := if 0 < ttl then some (now + ttl)
                              else if 0 < c.defaultTTL then some (now + c.defaultTTL)
                              else none
                 lastAccess := now }) ∧
    (∀ (c : MemoryCache) (k : Key) (v : Bytes) (ttl : Int) (now : Int) (it : Item),
      lookupKey c.data k = some it →
      (lookupKey ((c.SetWithTTL k v ttl now).2).data k).map Item.accessCount = some 1) := by
  refine ⟨?_, ?_, ?_⟩
  · intro c k now it hk hl hexp
    simp [LFUCache.Get, hk, hl, hexp, LFUItem.touch, lookupKey_insertKey_self]
  · intro c k v ttl now it hk hc hl
    simp [LFUCache.SetWithTTL, hk, hc, hl, lookupKey_insertKey_self]
  · intro c k v ttl now it hl
    have hc1 :
        (if 0 < c.config.maxSize ∧ c.config.maxSize ≤ (c.data.length : Int) then
          match lookupKey c.data k with
          | some _ => c
          | none => c.evict
        else c) = c := by
      split
      · simp [hl]
      · rfl
    simp [MemoryCache.SetWithTTL, hc1, lookupKey_insertKey_self]

/-- Witness for C7_frequency_contract at concrete inputs. -/
theorem C7_frequency_contract_witness :
    ("k" : Key) ≠ "" ∧
    lookupKey memOverwriteMid.data "k" = some (Item.mk [1] (4 + noTTLHorizon) 5 2 4) ∧
    (lookupKey ((memOverwriteMid.SetWithTTL "k" [9] 0 6).2).data "k").map
      Item.accessCount = some 1 := by
  refine ⟨by decide, by decide, ?_⟩
  exact C7_frequency_contract.2.2 memOverwriteMid "k" [9] 0 6
    (Item.mk [1] (4 + noTTLHorizon) 5 2 4) (by decide)

/-! ### Claim C3 — capacity bound (counterexample part) -/

/-- Claim C3 (counterexample): the configurable engine accepts the empty
key; when `""` is then chosen as the victim, the `oldestKey != ""` guard
skips the deletion, so a set into a full capacity-1 cache leaves two
resident keys and records no eviction. -/
theorem C3_mem_empty_key_breaks_bound :
    memEmptyKeyFull.config.maxSize = 1 ∧
    memEmptyKeyFull.data.length = 2 ∧
    memEmptyKeyFull.evictions = 0 := by
  decide

/-! ### Claim C5 — LFU victim selection (counterexample part) -/

/-- Claim C5 (counterexample): in the configurable engine's `evictLFU`
there is no `lastAccess` tie-break.  Before the triggering insert, `a`
and `b` both have access count 1 and `b` has the strictly smaller
`lastAccess`; the scan still evicts `a` (the first minimal entry in
iteration order). -/
theorem C5_mem_lfu_no_tiebreak :
    (lookupKey memLFUTie.data "a").map (fun it => (it.accessCount, it.lastAccess)) =
      some (1, 3) ∧
    (lookupKey memLFUTie.data "b").map (fun it => (it.accessCount, it.lastAccess)) =
      some (1, 2) ∧
    lookupKey memLFUTieAfter.data "a" = none ∧
    (lookupKey memLFUTieAfter.data "b").isSome = true ∧
    memLFUTieAfter.evictions = 1 := by
  decide

/-! ### Claim C9 — sweep pass (counterexample part) -/

/-- Claim C9 (counterexample): the unbounded engine's sweep deletes the
expired entry but adds nothing to any eviction counter — its stats
report 0 evictions forever. -/
theorem C9_simple_sweep_counts_nothing :
    (simpleExpired.removeExpired 10).items = [] ∧
    ((simpleExpired.removeExpired 10).Stats).evictions = 0 := by
  decide

/-! ### Freshly written entries are unexpired at the instant of writing -/

theorem simpleItem_fresh_not_expired (v : Bytes) (ttl dttl : Int) (now : Int) :
    (SimpleItem.mk v (if 0 < ttl then some (now + ttl)
      else if 0 < dttl then some (now + dttl) else none)).isExpired now = false := by
  simp only [SimpleItem.isExpired]
  split_ifs with h1 h2 <;> simp <;> omega

theorem lruItem_fresh_not_expired (v : Bytes) (ttl dttl : Int) (now : Int) :
    (LRUItem.mk v (if 0 < ttl then some (now + ttl)
      else if 0 < dttl then some (now + dttl) else none)).isExpired now = false := by
  simp only [LRUItem.isExpired]
  split_ifs with h1 h2 <;> simp <;> omega

theorem lfuItem_expiry_not_expired (e : Option Int) (ttl dttl : Int) (now : Int)
    (he : e = if 0 < ttl then some (now + ttl)
      else if 0 < dttl then some (now + dttl) else none) :
    ∀ v f la, (LFUItem.mk v e f la).isExpired now = false := by
  intro v f la
  simp only [LFUItem.isExpired]
  rw [he]
  split_ifs with h1 h2 <;> simp <;> omega

theorem memItem_fresh_not_expired (v : Bytes) (ttl dttl : Int) (now : Int) :
    (Item.mk v (if 0 < ttl then now + ttl
      else if 0 < dttl then now + dttl else now + noTTLHorizon) now 1 now).isExpired
      now = false := by
  have hpos : (0 : Int) < noTTLHorizon := by norm_num [noTTLHorizon]
  simp only [Item.isExpired]
  split_ifs with h1 h2 <;> simp <;> omega

/-! ### Claim C1 — set/get round trip and copy discipline -/

theorem simple_roundtrip (c : SimpleCache) (k : Key) (v : Bytes) (ttl : Int) (now : Int)
    (hk : k ≠ "") (hc : c.closed = false) :
    (((c.SetWithTTL k v ttl now).2).Get k now).1 = some v := by
  have h := simpleItem_fresh_not_expired v ttl c.defaultTTL now
  simp only [SimpleCache.SetWithTTL, hk, hc]
  simp [SimpleCache.Get, hk, lookupKey_insertKey_self, h]

theorem lru_roundtrip (c : LRUCache) (k : Key) (v : Bytes) (ttl : Int) (now : Int)
    (hk : k ≠ "") (hc : c.closed = false) :
    (((c.SetWithTTL k v ttl now).2).Get k now).1 = some v := by
  have h := lruItem_fresh_not_expired v ttl c.defaultTTL now
  simp only [LRUCache.SetWithTTL, hk, hc]
  rcases hl : lookupKey c.items k with _ | it
  · simp [hl, SimpleCache.Get, LRUCache.Get, hk, lookupKey_insertKey_self, h]
  · simp [hl, LRUCache.Get, hk, lookupKey_insertKey_self, h]

theorem lfu_roundtrip (c : LFUCache) (k : Key) (v : Bytes) (ttl : Int) (now : Int)
    (hk : k ≠ "") (hc : c.closed = false) :
    (((c.SetWithTTL k v ttl now).2).Get k now).1 = some v := by
  have h := lfuItem_expiry_not_expired _ ttl c.defaultTTL now rfl
  simp only [LFUCache.SetWithTTL, hk, hc]
  rcases hl : lookupKey c.items k with _ | it
  · simp [hl, LFUCache.Get, hk, lookupKey_insertKey_self, h]
  · simp [hl, LFUCache.Get, hk, lookupKey_insertKey_self, h]

theorem mem_roundtrip (c : MemoryCache) (k : Key) (v : Bytes) (ttl : Int) (now : Int) :
    (((c.SetWithTTL k v ttl now).2).Get k now).1 = some v := by
  have h := memItem_fresh_not_expired v ttl c.config.defaultTTL now
  simp only [MemoryCache.SetWithTTL]
  simp [MemoryCache.Get, lookupKey_insertKey_self, h]

/-- Claim C1: on every engine, `set(k, v)` on an open cache followed
immediately by `get(k)` returns `(v, true)`; and the shared copy
discipline (`make` + `copy` on both the write and the read path) means
the slice stored in the cache and the slice seen by the caller never
alias: mutating the caller's bytes after `set`, or the returned bytes
after `get`, leaves the other side unchanged, while the copy itself
carries the same bytes. -/
theorem C1_roundtrip_and_copy :
    (∀ (c : SimpleCache) (k : Key) (v : Bytes) (ttl : Int) (now : Int),
      k ≠ "" → c.closed = false →
      (((c.SetWithTTL k v ttl now).2).Get k now).1 = some v) ∧
    (∀ (c : LRUCache) (k : Key) (v : Bytes) (ttl : Int) (now : Int),
      k ≠ "" → c.closed = false →
      (((c.SetWithTTL k v ttl now).2).Get k now).1 = some v) ∧
    (∀ (c : LFUCache) (k : Key) (v : Bytes) (ttl : Int) (now : Int),
      k ≠ "" → c.closed = false →
      (((c.SetWithTTL k v ttl now).2).Get k now).1 = some v) ∧
    (∀ (c : MemoryCache) (k : Key) (v : Bytes) (ttl : Int) (now : Int),
      k ≠ "" →
      (((c.SetWithTTL k v ttl now).2).Get k now).1 = some v) ∧
    (∀ (h : Heap) (p : Nat), p < h.cells.length →
      (copySlice h p).2 ≠ p ∧
      (copySlice h p).1.read (copySlice h p).2 = h.read p ∧
      (∀ bs, (((copySlice h p).1.write p bs).read (copySlice h p).2) =
        (copySlice h p).1.read (copySlice h p).2) ∧
      (∀ bs, (((copySlice h p).1.write (copySlice h p).2 bs).read p) =
        (copySlice h p).1.read p)) := by
  refine ⟨simple_roundtrip, lru_roundtrip, lfu_roundtrip,
    fun c k v ttl now _ => mem_roundtrip c k v ttl now,
    fun h p hp => ⟨copySlice_fresh h p hp, copySlice_read h p, ?_, ?_⟩⟩
  · intro bs
    exact Heap.read_write_ne _ p (copySlice h p).2 bs
      (fun e => copySlice_fresh h p hp e.symm)
  · intro bs
    exact Heap.read_write_ne _ (copySlice h p).2 p bs (copySlice_fresh h p hp)

/-- Witness for C1_roundtrip_and_copy at concrete inputs. -/
theorem C1_roundtrip_and_copy_witness :
    ("k" : Key) ≠ "" ∧ NewSimple.closed = false ∧
    (((NewSimple.SetWithTTL "k" [7] 5 0).2).Get "k" 0).1 = some [7] ∧
    ((((NewLRU 3).SetWithTTL "k" [7] 5 0).2).Get "k" 0).1 = some [7] ∧
    ((((NewLFU 3).SetWithTTL "k" [7] 5 0).2).Get "k" 0).1 = some [7] ∧
    ((((NewMemoryCache DefaultConfig).SetWithTTL "k" [7] 5 0).2).Get "k" 0).1 = some [7] ∧
    (0 : Nat) < (Heap.mk [[1, 2]]).cells.length ∧
    (copySlice (Heap.mk [[1, 2]]) 0).2 ≠ 0 := by
  refine ⟨by decide, by decide, ?_, ?_, ?_, ?_, by decide, ?_⟩
  · exact C1_roundtrip_and_copy.1 NewSimple "k" [7] 5 0 (by decide) (by decide)
  · exact C1_roundtrip_and_copy.2.1 (NewLRU 3) "k" [7] 5 0 (by decide) (by decide)
  · exact C1_roundtrip_and_copy.2.2.1 (NewLFU 3) "k" [7] 5 0 (by decide) (by decide)
  · exact C1_roundtrip_and_copy.2.2.2.1 (NewMemoryCache DefaultConfig) "k" [7] 5 0 (by decide)
  · exact (C1_roundtrip_and_copy.2.2.2.2 (Heap.mk [[1, 2]]) 0 (by decide)).1

/-! ### Claim C6 — "capacity ≤ 0 means unbounded" -/

/-- The i-th distinct key used to fill a cache. -/
def keyOfNat (n : Nat) : Key := String.mk (List.replicate (n + 1) 'a')

theorem keyOfNat_injective : Function.Injective keyOfNat := by
  intro m n h
  have h2 : List.replicate (m + 1) 'a' = List.replicate (n + 1) 'a' :=
    congrArg String.data h
  have h3 := congrArg List.length h2
  simpa using h3

theorem keyOfNat_ne_empty (n : Nat) : keyOfNat n ≠ "" := by
  intro h
  have h2 : List.replicate (n + 1) 'a' = ([] : List Char) := congrArg String.data h
  simpa using congrArg List.length h2

/-- `NewLRU(0)` — maxSize `0`, so "unbounded" per the claim — after `n`
sets of distinct fresh keys. -/
def lruFill (n : Nat) : LRUCache :=
  (List.range n).foldl
    (fun s i => (s.SetWithTTL (keyOfNat i) [] 0 (Int.ofNat i)).2) (NewLRUWithTTL 0 0)

theorem lruFill_succ (n : Nat) :
    lruFill (n + 1) = ((lruFill n).SetWithTTL (keyOfNat n) [] 0 (Int.ofNat n)).2 := by
  simp [lruFill, List.range_succ]

/-- A set of a fresh key into a non-full LRU cache: plain insert at the
head, nothing evicted. -/
theorem lru_set_fresh_not_full (c : LRUCache) (k : Key) (v : Bytes) (ttl now : Int)
    (hk : k ≠ "") (hc : c.closed = false) (hl : lookupKey c.items k = none)
    (hlen : (c.items.length : Int) < c.maxSize) :
    (c.SetWithTTL k v ttl now).2 =
      { c with items := insertKey c.items k
                 ⟨v, if 0 < ttl then some (now + ttl)
                     else if 0 < c.defaultTTL then some (now + c.defaultTTL) else none⟩
               order := k :: c.order } := by
  have hng : ¬ (c.maxSize ≤ (c.items.length : Int)) := by omega
  simp [LRUCache.SetWithTTL, hk, hc, hl, hng]

/-- A set of a fresh key into a full LRU cache: evict the tail first. -/
theorem lru_set_fresh_full (c : LRUCache) (k : Key) (v : Bytes) (ttl now : Int)
    (hk : k ≠ "") (hc : c.closed = false) (hl : lookupKey c.items k = none)
    (hlen : c.maxSize ≤ (c.items.length : Int)) :
    (c.SetWithTTL k v ttl now).2 =
      { c.evictTail with
          items := insertKey c.evictTail.items k
            ⟨v, if 0 < ttl then some (now + ttl)
                else if 0 < c.defaultTTL then some (now + c.defaultTTL) else none⟩
          order := k :: c.evictTail.order } := by
  simp [LRUCache.SetWithTTL, hk, hc, hl, hlen]

/-- `evictTail` on a nonempty list removes the last key. -/
theorem lru_evictTail_spec (c : LRUCache) (h : c.order ≠ []) :
    ∃ k, c.order.getLast? = some k ∧
      c.evictTail = { c with items := eraseKey c.items k, order := c.order.dropLast
                             evictions := c.evictions + 1 } := by
  rcases hlast : c.order.getLast? with _ | k
  · exact absurd (List.getLast?_eq_none_iff.mp hlast) h
  · exact ⟨k, rfl, by simp [LRUCache.evictTail, hlast]⟩

/-- Invariant of the fill: below 1000 keys nothing has been evicted,
the resident keys are exactly the (distinct) inserted ones. -/
theorem lruFill_inv (n : Nat) (hn : n ≤ 1000) :
    (lruFill n).maxSize = 1000 ∧ (lruFill n).closed = false ∧
    (lruFill n).evictions = 0 ∧ (lruFill n).items.length = n ∧
    (lruFill n).order.length = n ∧
    ∀ k ∈ (lruFill n).items.map Prod.fst, ∃ i, i < n ∧ k = keyOfNat i := by
  induction n with
  | zero =>
    refine ⟨rfl, rfl, rfl, rfl, rfl, ?_⟩
    simp [lruFill, NewLRUWithTTL]
  | succ m ih =>
    obtain ⟨hmax, hcl, hev, hlen, hord, hkeys⟩ := ih (Nat.le_of_succ_le hn)
    have hfresh : lookupKey (lruFill m).items (keyOfNat m) = none := by
      apply lookupKey_eq_none_of_not_mem_keys
      intro hmem
      obtain ⟨i, hi, hk⟩ := hkeys _ hmem
      have := keyOfNat_injective hk
      omega
    have hnotfull : ((lruFill m).items.length : Int) < (lruFill m).maxSize := by
      rw [hmax, hlen]
      have : m < 1000 := by omega
      exact_mod_cast this
    rw [lruFill_succ,
      lru_set_fresh_not_full _ _ _ _ _ (keyOfNat_ne_empty m) hcl hfresh hnotfull]
    refine ⟨hmax, hcl, hev, ?_, ?_, ?_⟩
    · rw [length_insertKey_of_none _ _ _ hfresh, hlen]
    · simpa using hord
    · intro k hmem
      rw [keys_insertKey_of_none _ _ _ hfresh] at hmem
      rcases List.mem_append.mp hmem with hold | hnew
      · obtain ⟨i, hi, hk⟩ := hkeys _ hold
        exact ⟨i, by omega, hk⟩
      · exact ⟨m, by omega, by simpa using hnew⟩

/-- Claim C6 (counterexample): the key-1001 set on the LRU engine that
was constructed with `maxSize = 0` triggers an eviction — the
constructor silently coerced "unbounded" to capacity 1000. -/
theorem C6_lru_zero_capacity_evicts : (lruFill 1001).evictions = 1 := by
  obtain ⟨hmax, hcl, hev, hlen, hord, hkeys⟩ := lruFill_inv 1000 (le_refl _)
  have hfresh : lookupKey (lruFill 1000).items (keyOfNat 1000) = none := by
    apply lookupKey_eq_none_of_not_mem_keys
    intro hmem
    obtain ⟨i, hi, hk⟩ := hkeys _ hmem
    have := keyOfNat_injective hk
    omega
  have hfull : (lruFill 1000).maxSize ≤ ((lruFill 1000).items.length : Int) := by
    rw [hmax, hlen]
    omega
  have hne : (lruFill 1000).order ≠ [] := by
    intro h
    rw [h] at hord
    simp at hord
  obtain ⟨k, hlast, heq⟩ := lru_evictTail_spec _ hne
  rw [lruFill_succ,
    lru_set_fresh_full _ _ _ _ _ (keyOfNat_ne_empty 1000) hcl hfresh hfull, heq]
  simpa using hev

/-- Claim C6 (amended): for the configurable engine `maxSize ≤ 0` really
means unbounded — a set is a plain insert, never an eviction — while
the dedicated LRU/LFU constructors coerce `maxSize ≤ 0` to capacity
1000, so those engines are always bounded. -/
theorem C6_unbounded_contract :
    (∀ (c : MemoryCache) (k : Key) (v : Bytes) (ttl now : Int),
      c.config.maxSize ≤ 0 →
      (c.SetWithTTL k v ttl now).2 =
        { c with data := (insertKey c.data k
            ⟨v, (if 0 < ttl then now + ttl
                 else if 0 < c.config.defaultTTL then now + c.config.defaultTTL
                 else now + noTTLHorizon), now, 1, now⟩) }) ∧
    (∀ m ttlv : Int, m ≤ 0 → (NewLRUWithTTL m ttlv).maxSize = 1000) ∧
    (∀ m ttlv : Int, m ≤ 0 → (NewLFUWithTTL m ttlv).maxSize = 1000) := by
  refine ⟨?_, ?_, ?_⟩
  · intro c k v ttl now hmax
    have hng : ¬ (0 < c.config.maxSize ∧ c.config.maxSize ≤ (c.data.length : Int)) := by
      rintro ⟨h1, _⟩
      omega
    simp [MemoryCache.SetWithTTL, hng]
  · intro m ttlv hm
    simp [NewLRUWithTTL, if_pos hm]
  · intro m ttlv hm
    simp [NewLFUWithTTL, if_pos hm]

/-- Witness for C6_unbounded_contract at concrete inputs. -/
theorem C6_unbounded_contract_witness :
    (NewMemoryCache (Config.mk 0 0 0 0)).config.maxSize ≤ 0 ∧
    ((NewMemoryCache (Config.mk 0 0 0 0)).SetWithTTL "k" [1] 0 5).2 =
      { NewMemoryCache (Config.mk 0 0 0 0) with
          data := (insertKey (NewMemoryCache (Config.mk 0 0 0 0)).data "k"
            ⟨[1], (if (0 : Int) < 0 then (5 : Int) + 0
                   else if (0 : Int) < (NewMemoryCache (Config.mk 0 0 0 0)).config.defaultTTL
                   then 5 + (NewMemoryCache (Config.mk 0 0 0 0)).config.defaultTTL
                   else 5 + noTTLHorizon), 5, 1, 5⟩) } ∧
    (0 : Int) ≤ 0 ∧ (NewLRUWithTTL 0 7).maxSize = 1000 ∧
    (NewLFUWithTTL (-3) 7).maxSize = 1000 := by
  refine ⟨by decide, ?_, by decide, ?_, ?_⟩
  · exact C6_unbounded_contract.1 (NewMemoryCache (Config.mk 0 0 0 0)) "k" [1] 0 5 (by decide)
  · exact C6_unbounded_contract.2.1 0 7 (by decide)
  · exact C6_unbounded_contract.2.2 (-3) 7 (by decide)

/-! ### Victim-scan membership lemmas -/

theorem lookupKey_isSome_of_mem_keys {α : Type} (l : List (Key × α)) (k : Key)
    (h : k ∈ l.map Prod.fst) : ∃ w, lookupKey l k = some w := by
  induction l with
  | nil => simp at h
  | cons kv rest ih =>
    by_cases hk : kv.1 = k
    · exact ⟨kv.2, by simp [lookupKey, hk]⟩
    · have h2 : k = kv.1 ∨ k ∈ rest.map Prod.fst := by
        rw [List.map_cons] at h
        exact List.mem_cons.mp h
      obtain ⟨w, hw⟩ := ih (h2.resolve_left fun e => hk e.symm)
      exact ⟨w, by simp [lookupKey, hk, hw]⟩

theorem memLruScan_acc_or_mem (l : List (Key × Item)) :
    ∀ (first : Bool) (bk : Key) (bt : Int),
      MemoryCache.lruScan first bk bt l = bk ∨
      MemoryCache.lruScan first bk bt l ∈ l.map Prod.fst := by
  induction l with
  | nil => intro first bk bt; exact Or.inl rfl
  | cons kv rest ih =>
    intro first bk bt
    obtain ⟨k0, it0⟩ := kv
    by_cases hcond : first = true ∨ it0.lastAccess < bt
    · rw [show MemoryCache.lruScan first bk bt ((k0, it0) :: rest) =
          MemoryCache.lruScan false k0 it0.lastAccess rest from by
        simp [MemoryCache.lruScan, hcond]]
      rcases ih false k0 it0.lastAccess with h | h
      · right; simp [h]
      · right; simp [h]
    · rw [show MemoryCache.lruScan first bk bt ((k0, it0) :: rest) =
          MemoryCache.lruScan false bk bt rest from by
        simp [MemoryCache.lruScan, hcond]]
      rcases ih false bk bt with h | h
      · exact Or.inl h
      · right; simp [h]

theorem memLruScan_mem (l : List (Key × Item)) (h : l ≠ []) :
    MemoryCache.lruScan true "" 0 l ∈ l.map Prod.fst := by
  obtain ⟨⟨k0, it0⟩, rest, rfl⟩ := List.exists_cons_of_ne_nil h
  rw [show MemoryCache.lruScan true "" 0 ((k0, it0) :: rest) =
      MemoryCache.lruScan false k0 it0.lastAccess rest from by
    simp [MemoryCache.lruScan]]
  rcases memLruScan_acc_or_mem rest false k0 it0.lastAccess with h1 | h1
  · simp [h1]
  · simp [h1]

theorem memFifoScan_acc_or_mem (l : List (Key × Item)) :
    ∀ (first : Bool) (bk : Key) (bt : Int),
      MemoryCache.fifoScan first bk bt l = bk ∨
      MemoryCache.fifoScan first bk bt l ∈ l.map Prod.fst := by
  induction l with
  | nil => intro first bk bt; exact Or.inl rfl
  | cons kv rest ih =>
    intro first bk bt
    obtain ⟨k0, it0⟩ := kv
    by_cases hcond : first = true ∨ it0.createdAt < bt
    · rw [show MemoryCache.fifoScan first bk bt ((k0, it0) :: rest) =
          MemoryCache.fifoScan false k0 it0.createdAt rest from by
        simp [MemoryCache.fifoScan, hcond]]
      rcases ih false k0 it0.createdAt with h | h
      · right; simp [h]
      · right; simp [h]
    · rw [show MemoryCache.fifoScan first bk bt ((k0, it0) :: rest) =
          MemoryCache.fifoScan false bk bt rest from by
        simp [MemoryCache.fifoScan, hcond]]
      rcases ih false bk bt with h | h
      · exact Or.inl h
      · right; simp [h]

theorem memFifoScan_mem (l : List (Key × Item)) (h : l ≠ []) :
    MemoryCache.fifoScan true "" 0 l ∈ l.map Prod.fst := by
  obtain ⟨⟨k0, it0⟩, rest, rfl⟩ := List.exists_cons_of_ne_nil h
  rw [show MemoryCache.fifoScan true "" 0 ((k0, it0) :: rest) =
      MemoryCache.fifoScan false k0 it0.createdAt rest from by
    simp [MemoryCache.fifoScan]]
  rcases memFifoScan_acc_or_mem rest false k0 it0.createdAt with h1 | h1
  · simp [h1]
  · simp [h1]

theorem memLfuScan_acc_or_mem (l : List (Key × Item)) :
    ∀ (ma : Int) (bk : Key),
      (MemoryCache.lfuScan ma bk l).2 = bk ∨
      (MemoryCache.lfuScan ma bk l).2 ∈ l.map Prod.fst := by
  induction l with
  | nil => intro ma bk; exact Or.inl rfl
  | cons kv rest ih =>
    intro ma bk
    obtain ⟨k0, it0⟩ := kv
    by_cases hcond : ma = -1 ∨ it0.accessCount < ma
    · rw [show MemoryCache.lfuScan ma bk ((k0, it0) :: rest) =
          MemoryCache.lfuScan it0.accessCount k0 rest from by
        simp [MemoryCache.lfuScan, hcond]]
      rcases ih it0.accessCount k0 with h | h
      · right; simp [h]
      · right; simp [h]
    · rw [show MemoryCache.lfuScan ma bk ((k0, it0) :: rest) =
          MemoryCache.lfuScan ma bk rest from by
        simp [MemoryCache.lfuScan, hcond]]
      rcases ih ma bk with h | h
      · exact Or.inl h
      · right; simp [h]

theorem memLfuScan_mem (l : List (Key × Item)) (h : l ≠ []) :
    (MemoryCache.lfuScan (-1) "" l).2 ∈ l.map Prod.fst := by
  obtain ⟨⟨k0, it0⟩, rest, rfl⟩ := List.exists_cons_of_ne_nil h
  rw [show MemoryCache.lfuScan (-1) "" ((k0, it0) :: rest) =
      MemoryCache.lfuScan it0.accessCount k0 rest from by
    simp [MemoryCache.lfuScan]]
  rcases memLfuScan_acc_or_mem rest it0.accessCount k0 with h1 | h1
  · simp [h1]
  · simp [h1]

theorem lfuScan_acc_or_mem (l : List (Key × LFUItem)) :
    ∀ (mf : Int) (bk : Key) (ot : Int),
      (LFUCache.lfuScan mf bk ot l).2.1 = bk ∨
      (LFUCache.lfuScan mf bk ot l).2.1 ∈ l.map Prod.fst := by
  induction l with
  | nil => intro mf bk ot; exact Or.inl rfl
  | cons kv rest ih =>
    intro mf bk ot
    obtain ⟨k0, it0⟩ := kv
    by_cases hcond : mf = -1 ∨ it0.frequency < mf ∨
        (it0.frequency = mf ∧ it0.lastAccess < ot)
    · rw [show LFUCache.lfuScan mf bk ot ((k0, it0) :: rest) =
          LFUCache.lfuScan it0.frequency k0 it0.lastAccess rest from by
        simp [LFUCache.lfuScan, hcond]]
      rcases ih it0.frequency k0 it0.lastAccess with h | h
      · right; simp [h]
      · right; simp [h]
    · rw [show LFUCache.lfuScan mf bk ot ((k0, it0) :: rest) =
          LFUCache.lfuScan mf bk ot rest from by
        simp [LFUCache.lfuScan, hcond]]
      rcases ih mf bk ot with h | h
      · exact Or.inl h
      · right; simp [h]

theorem lfuScan_mem (l : List (Key × LFUItem)) (h : l ≠ []) :
    (LFUCache.lfuScan (-1) "" 0 l).2.1 ∈ l.map Prod.fst := by
  obtain ⟨⟨k0, it0⟩, rest, rfl⟩ := List.exists_cons_of_ne_nil h
  rw [show LFUCache.lfuScan (-1) "" 0 ((k0, it0) :: rest) =
      LFUCache.lfuScan it0.frequency k0 it0.lastAccess rest from by
    simp [LFUCache.lfuScan]]
  rcases lfuScan_acc_or_mem rest it0.frequency k0 it0.lastAccess with h1 | h1
  · simp [h1]
  · simp [h1]

/-! ### Eviction removes exactly one entry -/

theorem mem_evictLRU_spec (c : MemoryCache) (hne : c.data ≠ [])
    (hkeys : ∀ k ∈ c.data.map Prod.fst, k ≠ "") :
    (c.evictLRU).data.length + 1 = c.data.length ∧
    (c.evictLRU).evictions = c.evictions + 1 ∧
    (∀ k, lookupKey c.data k = none → lookupKey (c.evictLRU).data k = none) ∧
    (c.evictLRU).config = c.config := by
  have hvk := memLruScan_mem c.data hne
  have hvne := hkeys _ hvk
  obtain ⟨w, hw⟩ := lookupKey_isSome_of_mem_keys c.data _ hvk
  have heq : c.evictLRU =
      { c with data := eraseKey c.data (MemoryCache.lruScan true "" 0 c.data)
               evictions := c.evictions + 1 } := by
    simp [MemoryCache.evictLRU, hvne]
  rw [heq]
  exact ⟨length_eraseKey_of_some _ _ _ hw, rfl,
    fun k hk => lookupKey_eraseKey_none _ _ _ hk, rfl⟩

theorem mem_evictLFU_spec (c : MemoryCache) (hne : c.data ≠ [])
    (hkeys : ∀ k ∈ c.data.map Prod.fst, k ≠ "") :
    (c.evictLFU).data.length + 1 = c.data.length ∧
    (c.evictLFU).evictions = c.evictions + 1 ∧
    (∀ k, lookupKey c.data k = none → lookupKey (c.evictLFU).data k = none) ∧
    (c.evictLFU).config = c.config := by
  have hvk := memLfuScan_mem c.data hne
  have hvne := hkeys _ hvk
  obtain ⟨w, hw⟩ := lookupKey_isSome_of_mem_keys c.data _ hvk
  have heq : c.evictLFU =
      { c with data := eraseKey c.data (MemoryCache.lfuScan (-1) "" c.data).2
               evictions := c.evictions + 1 } := by
    simp [MemoryCache.evictLFU, hvne]
  rw [heq]
  exact ⟨length_eraseKey_of_some _ _ _ hw, rfl,
    fun k hk => lookupKey_eraseKey_none _ _ _ hk, rfl⟩

theorem mem_evictFIFO_spec (c : MemoryCache) (hne : c.data ≠ [])
    (hkeys : ∀ k ∈ c.data.map Prod.fst, k ≠ "") :
    (c.evictFIFO).data.length + 1 = c.data.length ∧
    (c.evictFIFO).evictions = c.evictions + 1 ∧
    (∀ k, lookupKey c.data k = none → lookupKey (c.evictFIFO).data k = none) ∧
    (c.evictFIFO).config = c.config := by
  have hvk := memFifoScan_mem c.data hne
  have hvne := hkeys _ hvk
  obtain ⟨w, hw⟩ := lookupKey_isSome_of_mem_keys c.data _ hvk
  have heq : c.evictFIFO =
      { c with data := eraseKey c.data (MemoryCache.fifoScan true "" 0 c.data)
               evictions := c.evictions + 1 } := by
    simp [MemoryCache.evictFIFO, hvne]
  rw [heq]
  exact ⟨length_eraseKey_of_some _ _ _ hw, rfl,
    fun k hk => lookupKey_eraseKey_none _ _ _ hk, rfl⟩

/-- `MemoryCache.evict` on a nonempty map whose keys are all non-empty
strings (so no scan result collides with the `""` no-victim sentinel)
removes exactly one resident entry, counts exactly one eviction, and
introduces no new keys — whatever the policy value. -/
theorem mem_evict_spec (c : MemoryCache) (hne : c.data ≠ [])
    (hkeys : ∀ k ∈ c.data.map Prod.fst, k ≠ "") :
    (c.evict).data.length + 1 = c.data.length ∧
    (c.evict).evictions = c.evictions + 1 ∧
    (∀ k, lookupKey c.data k = none → lookupKey (c.evict).data k = none) ∧
    (c.evict).config = c.config := by
  have hlen0 : ¬ (c.data.length = 0) := fun h => hne (List.length_eq_zero.mp h)
  unfold MemoryCache.evict
  rw [if_neg hlen0]
  by_cases h0 : c.config.evictionPolicy = LRU
  · rw [if_pos h0]
    exact mem_evictLRU_spec c hne hkeys
  · rw [if_neg h0]
    by_cases h1 : c.config.evictionPolicy = LFU
    · rw [if_pos h1]
      exact mem_evictLFU_spec c hne hkeys
    · rw [if_neg h1]
      by_cases h2 : c.config.evictionPolicy = FIFO
      · rw [if_pos h2]
        exact mem_evictFIFO_spec c hne hkeys
      · rw [if_neg h2]
        exact mem_evictLRU_spec c hne hkeys

theorem lfu_evictLFU_spec (c : LFUCache) (hne : c.items ≠ [])
    (hkeys : ∀ k ∈ c.items.map Prod.fst, k ≠ "") :
    (c.evictLFU).items.length + 1 = c.items.length ∧
    (c.evictLFU).evictions = c.evictions + 1 ∧
    (∀ k, lookupKey c.items k = none → lookupKey (c.evictLFU).items k = none) ∧
    (c.evictLFU).maxSize = c.maxSize := by
  have hlen0 : ¬ (c.items.length = 0) := fun h => hne (List.length_eq_zero.mp h)
  have hvk := lfuScan_mem c.items hne
  have hvne := hkeys _ hvk
  obtain ⟨w, hw⟩ := lookupKey_isSome_of_mem_keys c.items _ hvk
  have heq : c.evictLFU =
      { c with items := eraseKey c.items (LFUCache.lfuScan (-1) "" 0 c.items).2.1
               evictions := c.evictions + 1 } := by
    simp [LFUCache.evictLFU, hlen0, hvne]
  rw [heq]
  exact ⟨length_eraseKey_of_some _ _ _ hw, rfl,
    fun k hk => lookupKey_eraseKey_none _ _ _ hk, rfl⟩

/-! ### Capacity behaviour of set, engine by engine -/

theorem mem_set_capacity (c : MemoryCache) (k : Key) (v : Bytes) (ttl now : Int)
    (hmax : 0 < c.config.maxSize) (hbound : (c.data.length : Int) ≤ c.config.maxSize)
    (hkeys : ∀ k' ∈ c.data.map Prod.fst, k' ≠ "") (hk : k ≠ "") :
    (∀ w, lookupKey c.data k = some w →
      (c.SetWithTTL k v ttl now).2.data.length = c.data.length ∧
      (c.SetWithTTL k v ttl now).2.evictions = c.evictions) ∧
    (lookupKey c.data k = none → (c.data.length : Int) < c.config.maxSize →
      (c.SetWithTTL k v ttl now).2.data.length = c.data.length + 1 ∧
      (c.SetWithTTL k v ttl now).2.evictions = c.evictions) ∧
    (lookupKey c.data k = none → (c.data.length : Int) = c.config.maxSize →
      (c.SetWithTTL k v ttl now).2.data.length = c.data.length ∧
      (c.SetWithTTL k v ttl now).2.evictions = c.evictions + 1) ∧
    (((c.SetWithTTL k v ttl now).2.data.length : Int) ≤ c.config.maxSize) := by
  have hset : ∀ c1 : MemoryCache,
      (if 0 < c.config.maxSize ∧ c.config.maxSize ≤ (c.data.length : Int) then
        match lookupKey c.data k with
        | some _ => c
        | none => c.evict
      else c) = c1 →
      (c.SetWithTTL k v ttl now).2 =
        { c1 with data := (insertKey c1.data k
            ⟨v, (if 0 < ttl then now + ttl
                 else if 0 < c.config.defaultTTL then now + c.config.defaultTTL
                 else now + noTTLHorizon), now, 1, now⟩) } := by
    intro c1 h1
    simp only [MemoryCache.SetWithTTL, h1]
  have hA : ∀ w, lookupKey c.data k = some w →
      (c.SetWithTTL k v ttl now).2.data.length = c.data.length ∧
      (c.SetWithTTL k v ttl now).2.evictions = c.evictions := by
    intro w hw
    have h1 := hset c (by split <;> simp [hw])
    rw [h1]
    exact ⟨length_insertKey_of_some _ _ _ _ hw, rfl⟩
  have hB : lookupKey c.data k = none → (c.data.length : Int) < c.config.maxSize →
      (c.SetWithTTL k v ttl now).2.data.length = c.data.length + 1 ∧
      (c.SetWithTTL k v ttl now).2.evictions = c.evictions := by
    intro hl hlt
    have h1 := hset c (by
      rw [if_neg]
      rintro ⟨_, h2⟩
      omega)
    rw [h1]
    exact ⟨length_insertKey_of_none _ _ _ hl, rfl⟩
  have hC : lookupKey c.data k = none → (c.data.length : Int) = c.config.maxSize →
      (c.SetWithTTL k v ttl now).2.data.length = c.data.length ∧
      (c.SetWithTTL k v ttl now).2.evictions = c.evictions + 1 := by
    intro hl hfull
    have hne : c.data ≠ [] := by
      intro h0
      rw [h0] at hfull
      simp at hfull
      omega
    obtain ⟨hlen, hev, hnone, _⟩ := mem_evict_spec c hne hkeys
    have h1 := hset c.evict (by
      rw [if_pos ⟨hmax, le_of_eq hfull.symm⟩]
      simp [hl])
    rw [h1]
    constructor
    · rw [length_insertKey_of_none _ _ _ (hnone k hl)]
      omega
    · exact hev
  refine ⟨hA, hB, hC, ?_⟩
  rcases hl : lookupKey c.data k with _ | w
  · rcases lt_or_eq_of_le hbound with hlt | hfull
    · have := (hB hl hlt).1
      omega
    · have := (hC hl hfull).1
      omega
  · have := (hA w hl).1
    omega

theorem lru_set_capacity (c : LRUCache) (k : Key) (v : Bytes) (ttl now : Int)
    (hk : k ≠ "") (hc : c.closed = false) (hmax : 0 < c.maxSize)
    (hbound : (c.items.length : Int) ≤ c.maxSize)
    (hord : c.order.length = c.items.length)
    (hcons : ∀ k' ∈ c.order, lookupKey c.items k' ≠ none) :
    (∀ w, lookupKey c.items k = some w →
      (c.SetWithTTL k v ttl now).2.items.length = c.items.length ∧
      (c.SetWithTTL k v ttl now).2.evictions = c.evictions) ∧
    (lookupKey c.items k = none → (c.items.length : Int) < c.maxSize →
      (c.SetWithTTL k v ttl now).2.items.length = c.items.length + 1 ∧
      (c.SetWithTTL k v ttl now).2.evictions = c.evictions) ∧
    (lookupKey c.items k = none → (c.items.length : Int) = c.maxSize →
      (c.SetWithTTL k v ttl now).2.items.length = c.items.length ∧
      (c.SetWithTTL k v ttl now).2.evictions = c.evictions + 1) ∧
    (((c.SetWithTTL k v ttl now).2.items.length : Int) ≤ c.maxSize) := by
  have hA : ∀ w, lookupKey c.items k = some w →
      (c.SetWithTTL k v ttl now).2.items.length = c.items.length ∧
      (c.SetWithTTL k v ttl now).2.evictions = c.evictions := by
    intro w hw
    simp only [LRUCache.SetWithTTL, hk, hc, hw]
    simp [length_insertKey_of_some _ _ _ _ hw]
  have hB : lookupKey c.items k = none → (c.items.length : Int) < c.maxSize →
      (c.SetWithTTL k v ttl now).2.items.length = c.items.length + 1 ∧
      (c.SetWithTTL k v ttl now).2.evictions = c.evictions := by
    intro hl hlt
    rw [lru_set_fresh_not_full c k v ttl now hk hc hl hlt]
    exact ⟨length_insertKey_of_none _ _ _ hl, rfl⟩
  have hC : lookupKey c.items k = none → (c.items.length : Int) = c.maxSize →
      (c.SetWithTTL k v ttl now).2.items.length = c.items.length ∧
      (c.SetWithTTL k v ttl now).2.evictions = c.evictions + 1 := by
    intro hl hfull
    have hone : c.order ≠ [] := by
      intro h0
      rw [h0] at hord
      have : c.items.length = 0 := hord.symm
      rw [this] at hfull
      simp at hfull
      omega
    obtain ⟨tk, hlast, heq⟩ := lru_evictTail_spec c hone
    have htk : lookupKey c.items tk ≠ none :=
      hcons tk (List.mem_of_getLast?_eq_some hlast)
    obtain ⟨w, hw⟩ := Option.ne_none_iff_exists'.mp htk
    rw [lru_set_fresh_full c k v ttl now hk hc hl (le_of_eq hfull.symm), heq]
    constructor
    · have h1 := length_eraseKey_of_some c.items tk w hw
      have h2 : lookupKey (eraseKey c.items tk) k = none :=
        lookupKey_eraseKey_none c.items tk k hl
      simp only [length_insertKey_of_none _ _ _ h2]
      omega
    · rfl
  refine ⟨hA, hB, hC, ?_⟩
  rcases hl : lookupKey c.items k with _ | w
  · rcases lt_or_eq_of_le hbound with hlt | hfull
    · have := (hB hl hlt).1
      omega
    · have := (hC hl hfull).1
      omega
  · have := (hA w hl).1
    omega

theorem lfu_set_capacity (c : LFUCache) (k : Key) (v : Bytes) (ttl now : Int)
    (hk : k ≠ "") (hc : c.closed = false) (hmax : 0 < c.maxSize)
    (hbound : (c.items.length : Int) ≤ c.maxSize)
    (hkeys : ∀ k' ∈ c.items.map Prod.fst, k' ≠ "") :
    (∀ w, lookupKey c.items k = some w →
      (c.SetWithTTL k v ttl now).2.items.length = c.items.length ∧
      (c.SetWithTTL k v ttl now).2.evictions = c.evictions) ∧
    (lookupKey c.items k = none → (c.items.length : Int) < c.maxSize →
      (c.SetWithTTL k v ttl now).2.items.length = c.items.length + 1 ∧
      (c.SetWithTTL k v ttl now).2.evictions = c.evictions) ∧
    (lookupKey c.items k = none → (c.items.length : Int) = c.maxSize →
      (c.SetWithTTL k v ttl now).2.items.length = c.items.length ∧
      (c.SetWithTTL k v ttl now).2.evictions = c.evictions + 1) ∧
    (((c.SetWithTTL k v ttl now).2.items.length : Int) ≤ c.maxSize) := by
  have hA : ∀ w, lookupKey c.items k = some w →
      (c.SetWithTTL k v ttl now).2.items.length = c.items.length ∧
      (c.SetWithTTL k v ttl now).2.evictions = c.evictions := by
    intro w hw
    simp only [LFUCache.SetWithTTL, hk, hc, hw]
    simp [length_insertKey_of_some _ _ _ _ hw]
  have hB : lookupKey c.items k = none → (c.items.length : Int) < c.maxSize →
      (c.SetWithTTL k v ttl now).2.items.length = c.items.length + 1 ∧
      (c.SetWithTTL k v ttl now).2.evictions = c.evictions := by
    intro hl hlt
    have hng : ¬ (c.maxSize ≤ (c.items.length : Int)) := by omega
    have hstate : (c.SetWithTTL k v ttl now).2 =
        { c with items := (insertKey c.items k
            ⟨v, (if 0 < ttl then some (now + ttl)
                 else if 0 < c.defaultTTL then some (now + c.defaultTTL)
                 else none), 1, now⟩) } := by
      simp [LFUCache.SetWithTTL, hk, hc, hl, hng]
    rw [hstate]
    exact ⟨length_insertKey_of_none _ _ _ hl, rfl⟩
  have hC : lookupKey c.items k = none → (c.items.length : Int) = c.maxSize →
      (c.SetWithTTL k v ttl now).2.items.length = c.items.length ∧
      (c.SetWithTTL k v ttl now).2.evictions = c.evictions + 1 := by
    intro hl hfull
    have hne : c.items ≠ [] := by
      intro h0
      rw [h0] at hfull
      simp at hfull
      omega
    obtain ⟨hlen, hev, hnone, _⟩ := lfu_evictLFU_spec c hne hkeys
    have hge : c.maxSize ≤ (c.items.length : Int) := le_of_eq hfull.symm
    have hstate : (c.SetWithTTL k v ttl now).2 =
        { c.evictLFU with items := (insertKey c.evictLFU.items k
            ⟨v, (if 0 < ttl then some (now + ttl)
                 else if 0 < c.defaultTTL then some (now + c.defaultTTL)
                 else none), 1, now⟩) } := by
      simp [LFUCache.SetWithTTL, hk, hc, hl, hge]
    rw [hstate]
    constructor
    · rw [length_insertKey_of_none _ _ _ (hnone k hl)]
      omega
    · exact hev
  refine ⟨hA, hB, hC, ?_⟩
  rcases hl : lookupKey c.items k with _ | w
  · rcases lt_or_eq_of_le hbound with hlt | hfull
    · have := (hB hl hlt).1
      omega
    · have := (hC hl hfull).1
      omega
  · have := (hA w hl).1
    omega

/-- Dedicated LFU engine, capacity 3, after inserting A, B, C. -/
def lfuABC : LFUCache :=
  ((((NewLFU 3).Set "A" [1] 1).2.Set "B" [2] 2).2.Set "C" [3] 3).2

/-- Claim C3 (amended): for an engine with capacity N > 0, provided
every resident key and the inserted key are non-empty strings (the
memory-package engines guarantee this by rejecting `""`; the
configurable engine does not — see the counterexample): an overwrite
evicts nothing, a fresh insert below capacity only inserts, a fresh
insert into a full cache removes exactly one victim (the key count is
unchanged) and increments the eviction counter by exactly one, and the
key count after any set stays at most N.  For the LRU engine the linked
list must mirror the map (its standing invariant). -/
theorem C3_capacity_contract :
    (∀ (c : MemoryCache) (k : Key) (v : Bytes) (ttl now : Int),
      0 < c.config.maxSize → (c.data.length : Int) ≤ c.config.maxSize →
      (∀ k' ∈ c.data.map Prod.fst, k' ≠ "") → k ≠ "" →
      (∀ w, lookupKey c.data k = some w →
        (c.SetWithTTL k v ttl now).2.data.length = c.data.length ∧
        (c.SetWithTTL k v ttl now).2.evictions = c.evictions) ∧
      (lookupKey c.data k = none → (c.data.length : Int) < c.config.maxSize →
        (c.SetWithTTL k v ttl now).2.data.length = c.data.length + 1 ∧
        (c.SetWithTTL k v ttl now).2.evictions = c.evictions) ∧
      (lookupKey c.data k = none → (c.data.length : Int) = c.config.maxSize →
        (c.SetWithTTL k v ttl now).2.data.length = c.data.length ∧
        (c.SetWithTTL k v ttl now).2.evictions = c.evictions + 1) ∧
      (((c.SetWithTTL k v ttl now).2.data.length : Int) ≤ c.config.maxSize)) ∧
    (∀ (c : LRUCache) (k : Key) (v : Bytes) (ttl now : Int),
      k ≠ "" → c.closed = false → 0 < c.maxSize →
      (c.items.length : Int) ≤ c.maxSize →
      c.order.length = c.items.length →
      (∀ k' ∈ c.order, lookupKey c.items k' ≠ none) →
      (∀ w, lookupKey c.items k = some w →
        (c.SetWithTTL k v ttl now).2.items.length = c.items.length ∧
        (c.SetWithTTL k v ttl now).2.evictions = c.evictions) ∧
      (lookupKey c.items k = none → (c.items.length : Int) < c.maxSize →
        (c.SetWithTTL k v ttl now).2.items.length = c.items.length + 1 ∧
        (c.SetWithTTL k v ttl now).2.evictions = c.evictions) ∧
      (lookupKey c.items k = none → (c.items.length : Int) = c.maxSize →
        (c.SetWithTTL k v ttl now).2.items.length = c.items.length ∧
        (c.SetWithTTL k v ttl now).2.evictions = c.evictions + 1) ∧
      (((c.SetWithTTL k v ttl now).2.items.length : Int) ≤ c.maxSize)) ∧
    (∀ (c : LFUCache) (k : Key) (v : Bytes) (ttl now : Int),
      k ≠ "" → c.closed = false → 0 < c.maxSize →
      (c.items.length : Int) ≤ c.maxSize →
      (∀ k' ∈ c.items.map Prod.fst, k' ≠ "") →
      (∀ w, lookupKey c.items k = some w →
        (c.SetWithTTL k v ttl now).2.items.length = c.items.length ∧
        (c.SetWithTTL k v ttl now).2.evictions = c.evictions) ∧
      (lookupKey c.items k = none → (c.items.length : Int) < c.maxSize →
        (c.SetWithTTL k v ttl now).2.items.length = c.items.length + 1 ∧
        (c.SetWithTTL k v ttl now).2.evictions = c.evictions) ∧
      (lookupKey c.items k = none → (c.items.length : Int) = c.maxSize →
        (c.SetWithTTL k v ttl now).2.items.length = c.items.length ∧
        (c.SetWithTTL k v ttl now).2.evictions = c.evictions + 1) ∧
      (((c.SetWithTTL k v ttl now).2.items.length : Int) ≤ c.maxSize)) :=
  ⟨fun c k v ttl now h1 h2 h3 h4 => mem_set_capacity c k v ttl now h1 h2 h3 h4,
   fun c k v ttl now h1 h2 h3 h4 h5 h6 => lru_set_capacity c k v ttl now h1 h2 h3 h4 h5 h6,
   fun c k v ttl now h1 h2 h3 h4 h5 => lfu_set_capacity c k v ttl now h1 h2 h3 h4 h5⟩

/-- Witness for C3_capacity_contract at concrete inputs: inserting a
fresh fourth key into each full capacity-3 engine. -/
theorem C3_capacity_contract_witness :
    (0 < memABC.config.maxSize ∧ (memABC.data.length : Int) ≤ memABC.config.maxSize ∧
      (∀ k' ∈ memABC.data.map Prod.fst, k' ≠ "") ∧ ("D" : Key) ≠ "" ∧
      ((memABC.SetWithTTL "D" [4] 0 5).2.data.length : Int) ≤ memABC.config.maxSize) ∧
    (("D" : Key) ≠ "" ∧ lruABC.closed = false ∧ 0 < lruABC.maxSize ∧
      (lruABC.items.length : Int) ≤ lruABC.maxSize ∧
      lruABC.order.length = lruABC.items.length ∧
      (∀ k' ∈ lruABC.order, lookupKey lruABC.items k' ≠ none) ∧
      ((lruABC.SetWithTTL "D" [4] 0 5).2.items.length : Int) ≤ lruABC.maxSize) ∧
    (("D" : Key) ≠ "" ∧ lfuABC.closed = false ∧ 0 < lfuABC.maxSize ∧
      (lfuABC.items.length : Int) ≤ lfuABC.maxSize ∧
      (∀ k' ∈ lfuABC.items.map Prod.fst, k' ≠ "") ∧
      ((lfuABC.SetWithTTL "D" [4] 0 5).2.items.length : Int) ≤ lfuABC.maxSize) := by
  refine ⟨⟨by decide, by decide, by decide, by decide, ?_⟩,
          ⟨by decide, by decide, by decide, by decide, by decide, by decide, ?_⟩,
          ⟨by decide, by decide, by decide, by decide, by decide, ?_⟩⟩
  · exact (C3_capacity_contract.1 memABC "D" [4] 0 5
      (by decide) (by decide) (by decide) (by decide)).2.2.2
  · exact (C3_capacity_contract.2.1 lruABC "D" [4] 0 5
      (by decide) (by decide) (by decide) (by decide) (by decide) (by decide)).2.2.2
  · exact (C3_capacity_contract.2.2 lfuABC "D" [4] 0 5
      (by decide) (by decide) (by decide) (by decide) (by decide)).2.2.2

/-! ### Claim C5 — LFU victim selection (amended part) -/

/-- The order the dedicated LFU scan minimises: frequency first,
`lastAccess` as tie-break. -/
def freqLex (a b : Int × Int) : Prop :=
  a.1 < b.1 ∨ (a.1 = b.1 ∧ a.2 ≤ b.2)

theorem freqLex_trans {a b c : Int × Int} (h1 : freqLex a b) (h2 : freqLex b c) :
    freqLex a c := by
  rcases h1 with h1 | h1 <;> rcases h2 with h2 | h2 <;>
    simp only [freqLex] at * <;> omega

/-- Full behaviour of the dedicated LFU scan from a real accumulator
(frequency ≥ 1, so the `-1` sentinel check stays off): the result is the
accumulator or some processed entry, and it is lexicographically minimal
among the accumulator and everything processed. -/
theorem lfuScan_spec (l : List (Key × LFUItem)) :
    ∀ (f : Int) (k : Key) (t : Int), 1 ≤ f → (∀ kv ∈ l, 1 ≤ kv.2.frequency) →
      (((LFUCache.lfuScan f k t l).1 = f ∧ (LFUCache.lfuScan f k t l).2.1 = k ∧
          (LFUCache.lfuScan f k t l).2.2 = t) ∨
        (∃ it, ((LFUCache.lfuScan f k t l).2.1, it) ∈ l ∧
          it.frequency = (LFUCache.lfuScan f k t l).1 ∧
          it.lastAccess = (LFUCache.lfuScan f k t l).2.2)) ∧
      freqLex ((LFUCache.lfuScan f k t l).1, (LFUCache.lfuScan f k t l).2.2) (f, t) ∧
      (∀ kv ∈ l,
        freqLex ((LFUCache.lfuScan f k t l).1, (LFUCache.lfuScan f k t l).2.2)
          (kv.2.frequency, kv.2.lastAccess)) := by
  induction l with
  | nil =>
    intro f k t hf _
    exact ⟨Or.inl ⟨rfl, rfl, rfl⟩, Or.inr ⟨rfl, le_refl _⟩, fun kv hkv => absurd hkv (by simp)⟩
  | cons kv0 rest ih =>
    intro f k t hf hall
    obtain ⟨k0, it0⟩ := kv0
    have hit0 : 1 ≤ it0.frequency := hall (k0, it0) (List.mem_cons_self _ _)
    have hrest : ∀ kv ∈ rest, 1 ≤ kv.2.frequency :=
      fun kv hkv => hall kv (List.mem_cons_of_mem _ hkv)
    by_cases hcond : f = -1 ∨ it0.frequency < f ∨
        (it0.frequency = f ∧ it0.lastAccess < t)
    · have hstep : LFUCache.lfuScan f k t ((k0, it0) :: rest) =
          LFUCache.lfuScan it0.frequency k0 it0.lastAccess rest := by
        simp [LFUCache.lfuScan, hcond]
      have hlt : freqLex (it0.frequency, it0.lastAccess) (f, t) := by
        rcases hcond with h | h | h
        · omega
        · exact Or.inl h
        · exact Or.inr ⟨h.1, le_of_lt h.2⟩
      obtain ⟨ho, hacc, hmin⟩ := ih it0.frequency k0 it0.lastAccess hit0 hrest
      rw [hstep]
      refine ⟨?_, freqLex_trans hacc hlt, ?_⟩
      · rcases ho with ⟨h1, h2, h3⟩ | ⟨it, hit, h1, h2⟩
        · exact Or.inr ⟨it0, by rw [h2]; exact List.mem_cons_self _ _, by omega, by omega⟩
        · exact Or.inr ⟨it, List.mem_cons_of_mem _ hit, h1, h2⟩
      · intro kv hkv
        rcases List.mem_cons.mp hkv with h | h
        · rw [h]
          exact hacc
        · exact hmin kv h
    · have hstep : LFUCache.lfuScan f k t ((k0, it0) :: rest) =
          LFUCache.lfuScan f k t rest := by
        simp [LFUCache.lfuScan, hcond]
      push_neg at hcond
      have hge : freqLex (f, t) (it0.frequency, it0.lastAccess) := by
        rcases lt_or_eq_of_le (by omega : f ≤ it0.frequency) with h | h
        · exact Or.inl h
        · exact Or.inr ⟨h, by
            have := hcond.2.2 h.symm
            omega⟩
      obtain ⟨ho, hacc, hmin⟩ := ih f k t hf hrest
      rw [hstep]
      refine ⟨?_, hacc, ?_⟩
      · rcases ho with h | ⟨it, hit, h1, h2⟩
        · exact Or.inl h
        · exact Or.inr ⟨it, List.mem_cons_of_mem _ hit, h1, h2⟩
      · intro kv hkv
        rcases List.mem_cons.mp hkv with h | h
        · rw [h]
          exact freqLex_trans hacc hge
        · exact hmin kv h

/-- The victim of the dedicated LFU scan on a nonempty map with
frequencies ≥ 1: some resident entry with lexicographically minimal
(frequency, lastAccess). -/
theorem lfuScan_min (l : List (Key × LFUItem)) (hne : l ≠ [])
    (hfreq : ∀ kv ∈ l, 1 ≤ kv.2.frequency) :
    ∃ it, ((LFUCache.lfuScan (-1) "" 0 l).2.1, it) ∈ l ∧
      (∀ kv ∈ l, it.frequency ≤ kv.2.frequency) ∧
      (∀ kv ∈ l, kv.2.frequency = it.frequency → it.lastAccess ≤ kv.2.lastAccess) := by
  obtain ⟨⟨k0, it0⟩, rest, rfl⟩ := List.exists_cons_of_ne_nil hne
  have hstep : LFUCache.lfuScan (-1) "" 0 ((k0, it0) :: rest) =
      LFUCache.lfuScan it0.frequency k0 it0.lastAccess rest := by
    simp [LFUCache.lfuScan]
  have hit0 : 1 ≤ it0.frequency := hfreq (k0, it0) (List.mem_cons_self _ _)
  have hrest : ∀ kv ∈ rest, 1 ≤ kv.2.frequency :=
    fun kv hkv => hfreq kv (List.mem_cons_of_mem _ hkv)
  obtain ⟨ho, hacc, hmin⟩ := lfuScan_spec rest it0.frequency k0 it0.lastAccess hit0 hrest
  rw [hstep]
  have hexists : ∃ it,
      ((LFUCache.lfuScan it0.frequency k0 it0.lastAccess rest).2.1, it) ∈
        (k0, it0) :: rest ∧
      it.frequency = (LFUCache.lfuScan it0.frequency k0 it0.lastAccess rest).1 ∧
      it.lastAccess = (LFUCache.lfuScan it0.frequency k0 it0.lastAccess rest).2.2 := by
    rcases ho with ⟨h1, h2, h3⟩ | ⟨it, hit, h1, h2⟩
    · exact ⟨it0, by rw [h2]; exact List.mem_cons_self _ _, by omega, by omega⟩
    · exact ⟨it, List.mem_cons_of_mem _ hit, h1, h2⟩
  obtain ⟨it, hmem, hfr, hla⟩ := hexists
  refine ⟨it, hmem, ?_, ?_⟩
  · intro kv hkv
    rcases List.mem_cons.mp hkv with h | h
    · rw [h]
      rw [hfr]
      rcases hacc with h1 | h1
      · exact le_of_lt h1
      · exact le_of_eq h1.1
    · rcases hmin kv h with h1 | h1
      · rw [hfr]; exact le_of_lt h1
      · rw [hfr]; exact le_of_eq h1.1
  · intro kv hkv hkvfr
    have hlex : freqLex
        ((LFUCache.lfuScan it0.frequency k0 it0.lastAccess rest).1,
         (LFUCache.lfuScan it0.frequency k0 it0.lastAccess rest).2.2)
        (kv.2.frequency, kv.2.lastAccess) := by
      rcases List.mem_cons.mp hkv with h | h
      · rw [h]
        exact hacc
      · exact hmin kv h
    have hlex2 : (LFUCache.lfuScan it0.frequency k0 it0.lastAccess rest).1 <
        kv.2.frequency ∨
        ((LFUCache.lfuScan it0.frequency k0 it0.lastAccess rest).1 = kv.2.frequency ∧
         (LFUCache.lfuScan it0.frequency k0 it0.lastAccess rest).2.2 ≤
           kv.2.lastAccess) := hlex
    rcases hlex2 with h1 | h1
    · omega
    · omega

/-- Behaviour of the configurable engine's LFU scan from a real
accumulator (count ≥ 0, sentinel off): minimal access count only. -/
theorem memLfuScan_spec (l : List (Key × Item)) :
    ∀ (a : Int) (bk : Key), 0 ≤ a → (∀ kv ∈ l, 0 ≤ kv.2.accessCount) →
      (((MemoryCache.lfuScan a bk l).1 = a ∧ (MemoryCache.lfuScan a bk l).2 = bk) ∨
        (∃ it, ((MemoryCache.lfuScan a bk l).2, it) ∈ l ∧
          it.accessCount = (MemoryCache.lfuScan a bk l).1)) ∧
      (MemoryCache.lfuScan a bk l).1 ≤ a ∧
      (∀ kv ∈ l, (MemoryCache.lfuScan a bk l).1 ≤ kv.2.accessCount) := by
  induction l with
  | nil =>
    intro a bk ha _
    exact ⟨Or.inl ⟨rfl, rfl⟩, le_refl _, fun kv hkv => absurd hkv (by simp)⟩
  | cons kv0 rest ih =>
    intro a bk ha hall
    obtain ⟨k0, it0⟩ := kv0
    have hit0 : 0 ≤ it0.accessCount := hall (k0, it0) (List.mem_cons_self _ _)
    have hrest : ∀ kv ∈ rest, 0 ≤ kv.2.accessCount :=
      fun kv hkv => hall kv (List.mem_cons_of_mem _ hkv)
    by_cases hcond : a = -1 ∨ it0.accessCount < a
    · have hstep : MemoryCache.lfuScan a bk ((k0, it0) :: rest) =
          MemoryCache.lfuScan it0.accessCount k0 rest := by
        simp [MemoryCache.lfuScan, hcond]
      have hlt : it0.accessCount ≤ a := by omega
      obtain ⟨ho, hacc, hmin⟩ := ih it0.accessCount k0 hit0 hrest
      rw [hstep]
      refine ⟨?_, by omega, ?_⟩
      · rcases ho with ⟨h1, h2⟩ | ⟨it, hit, h1⟩
        · exact Or.inr ⟨it0, by rw [h2]; exact List.mem_cons_self _ _, by omega⟩
        · exact Or.inr ⟨it, List.mem_cons_of_mem _ hit, h1⟩
      · intro kv hkv
        rcases List.mem_cons.mp hkv with h | h
        · rw [h]
          show (MemoryCache.lfuScan it0.accessCount k0 rest).1 ≤ it0.accessCount
          omega
        · exact hmin kv h
    · have hstep : MemoryCache.lfuScan a bk ((k0, it0) :: rest) =
          MemoryCache.lfuScan a bk rest := by
        simp [MemoryCache.lfuScan, hcond]
      push_neg at hcond
      obtain ⟨ho, hacc, hmin⟩ := ih a bk ha hrest
      rw [hstep]
      refine ⟨?_, hacc, ?_⟩
      · rcases ho with h | ⟨it, hit, h1⟩
        · exact Or.inl h
        · exact Or.inr ⟨it, List.mem_cons_of_mem _ hit, h1⟩
      · intro kv hkv
        rcases List.mem_cons.mp hkv with h | h
        · rw [h]
          show (MemoryCache.lfuScan a bk rest).1 ≤ it0.accessCount
          have := hcond.2
          omega
        · exact hmin kv h

theorem memLfuScan_min (l : List (Key × Item)) (hne : l ≠ [])
    (hcnt : ∀ kv ∈ l, 0 ≤ kv.2.accessCount) :
    ∃ it, ((MemoryCache.lfuScan (-1) "" l).2, it) ∈ l ∧
      (∀ kv ∈ l, it.accessCount ≤ kv.2.accessCount) := by
  obtain ⟨⟨k0, it0⟩, rest, rfl⟩ := List.exists_cons_of_ne_nil hne
  have hstep : MemoryCache.lfuScan (-1) "" ((k0, it0) :: rest) =
      MemoryCache.lfuScan it0.accessCount k0 rest := by
    simp [MemoryCache.lfuScan]
  have hit0 : 0 ≤ it0.accessCount := hcnt (k0, it0) (List.mem_cons_self _ _)
  have hrest : ∀ kv ∈ rest, 0 ≤ kv.2.accessCount :=
    fun kv hkv => hcnt kv (List.mem_cons_of_mem _ hkv)
  obtain ⟨ho, hacc, hmin⟩ := memLfuScan_spec rest it0.accessCount k0 hit0 hrest
  rw [hstep]
  have hexists : ∃ it,
      ((MemoryCache.lfuScan it0.accessCount k0 rest).2, it) ∈ (k0, it0) :: rest ∧
      it.accessCount = (MemoryCache.lfuScan it0.accessCount k0 rest).1 := by
    rcases ho with ⟨h1, h2⟩ | ⟨it, hit, h1⟩
    · exact ⟨it0, by rw [h2]; exact List.mem_cons_self _ _, by omega⟩
    · exact ⟨it, List.mem_cons_of_mem _ hit, h1⟩
  obtain ⟨it, hmem, hfr⟩ := hexists
  refine ⟨it, hmem, ?_⟩
  intro kv hkv
  rcases List.mem_cons.mp hkv with h | h
  · rw [h]
    show it.accessCount ≤ it0.accessCount
    omega
  · rw [hfr]
    exact hmin kv h

/-- Claim C5 (amended): on the dedicated LFU engine the evicted victim
is a resident entry whose frequency is minimal and, among entries
sharing that minimal frequency, whose `lastAccess` is minimal; the
triggering set of a fresh key into a full cache routes through exactly
that eviction.  The configurable engine's `evictLFU` only guarantees a
victim of minimal access count — it has no `lastAccess` tie-break (see
the counterexample). -/
theorem C5_lfu_victim_selection :
    (∀ (c : LFUCache), c.items ≠ [] → (∀ k ∈ c.items.map Prod.fst, k ≠ "") →
      (∀ kv ∈ c.items, 1 ≤ kv.2.frequency) →
      ∃ it, ((LFUCache.lfuScan (-1) "" 0 c.items).2.1, it) ∈ c.items ∧
        c.evictLFU = { c with
          items := eraseKey c.items (LFUCache.lfuScan (-1) "" 0 c.items).2.1
          evictions := c.evictions + 1 } ∧
        (∀ kv ∈ c.items, it.frequency ≤ kv.2.frequency) ∧
        (∀ kv ∈ c.items, kv.2.frequency = it.frequency →
          it.lastAccess ≤ kv.2.lastAccess)) ∧
    (∀ (c : LFUCache) (k : Key) (v : Bytes) (ttl now : Int),
      k ≠ "" → c.closed = false → lookupKey c.items k = none →
      c.maxSize ≤ (c.items.length : Int) →
      (c.SetWithTTL k v ttl now).2.items =
        insertKey c.evictLFU.items k
          ⟨v, (if 0 < ttl then some (now + ttl)
               else if 0 < c.defaultTTL then some (now + c.defaultTTL)
               else none), 1, now⟩) ∧
    (∀ (c : MemoryCache), c.data ≠ [] → (∀ k ∈ c.data.map Prod.fst, k ≠ "") →
      (∀ kv ∈ c.data, 0 ≤ kv.2.accessCount) →
      ∃ it, ((MemoryCache.lfuScan (-1) "" c.data).2, it) ∈ c.data ∧
        c.evictLFU = { c with
          data := eraseKey c.data (MemoryCache.lfuScan (-1) "" c.data).2
          evictions := c.evictions + 1 } ∧
        (∀ kv ∈ c.data, it.accessCount ≤ kv.2.accessCount)) := by
  refine ⟨?_, ?_, ?_⟩
  · intro c hne hkeys hfreq
    obtain ⟨it, hmem, hminf, hminla⟩ := lfuScan_min c.items hne hfreq
    have hvne : (LFUCache.lfuScan (-1) "" 0 c.items).2.1 ≠ "" :=
      hkeys _ (List.mem_map.mpr ⟨(_, it), hmem, rfl⟩)
    have hlen0 : ¬ (c.items.length = 0) := fun h => hne (List.length_eq_zero.mp h)
    refine ⟨it, hmem, ?_, hminf, hminla⟩
    simp [LFUCache.evictLFU, hlen0, hvne]
  · intro c k v ttl now hk hc hl hge
    simp [LFUCache.SetWithTTL, hk, hc, hl, hge]
  · intro c hne hkeys hcnt
    obtain ⟨it, hmem, hmin⟩ := memLfuScan_min c.data hne hcnt
    have hvne : (MemoryCache.lfuScan (-1) "" c.data).2 ≠ "" :=
      hkeys _ (List.mem_map.mpr ⟨(_, it), hmem, rfl⟩)
    refine ⟨it, hmem, ?_, hmin⟩
    simp [MemoryCache.evictLFU, hvne]

/-- Witness for C5_lfu_victim_selection at concrete inputs. -/
theorem C5_lfu_victim_selection_witness :
    (lfuABC.items ≠ [] ∧ (∀ k ∈ lfuABC.items.map Prod.fst, k ≠ "") ∧
      (∀ kv ∈ lfuABC.items, 1 ≤ kv.2.frequency) ∧
      ∃ it, ((LFUCache.lfuScan (-1) "" 0 lfuABC.items).2.1, it) ∈ lfuABC.items ∧
        lfuABC.evictLFU = { lfuABC with
          items := eraseKey lfuABC.items (LFUCache.lfuScan (-1) "" 0 lfuABC.items).2.1
          evictions := lfuABC.evictions + 1 } ∧
        (∀ kv ∈ lfuABC.items, it.frequency ≤ kv.2.frequency) ∧
        (∀ kv ∈ lfuABC.items, kv.2.frequency = it.frequency →
          it.lastAccess ≤ kv.2.lastAccess)) ∧
    ((lfuABC.SetWithTTL "D" [4] 0 5).2.items =
      insertKey lfuABC.evictLFU.items "D"
        ⟨[4], (if (0 : Int) < 0 then some ((5 : Int) + 0)
               else if 0 < lfuABC.defaultTTL then some (5 + lfuABC.defaultTTL)
               else none), 1, 5⟩) ∧
    (memLFUTie.data ≠ [] ∧ (∀ k ∈ memLFUTie.data.map Prod.fst, k ≠ "") ∧
      (∀ kv ∈ memLFUTie.data, 0 ≤ kv.2.accessCount) ∧
      ∃ it, ((MemoryCache.lfuScan (-1) "" memLFUTie.data).2, it) ∈ memLFUTie.data ∧
        memLFUTie.evictLFU = { memLFUTie with
          data := eraseKey memLFUTie.data (MemoryCache.lfuScan (-1) "" memLFUTie.data).2
          evictions := memLFUTie.evictions + 1 } ∧
        (∀ kv ∈ memLFUTie.data, it.accessCount ≤ kv.2.accessCount)) := by
  refine ⟨⟨by decide, by decide, by decide, ?_⟩, ?_, ⟨by decide, by decide, by decide, ?_⟩⟩
  · exact C5_lfu_victim_selection.1 lfuABC (by decide) (by decide) (by decide)
  · exact C5_lfu_victim_selection.2.1 lfuABC "D" [4] 0 5
      (by decide) (by decide) (by decide) (by decide)
  · exact C5_lfu_victim_selection.2.2 memLFUTie (by decide) (by decide) (by decide)

/-! ### Claim C9 — the sweep pass (amended part) -/

theorem eraseKey_of_none {α : Type} (l : List (Key × α)) (k : Key)
    (h : lookupKey l k = none) : eraseKey l k = l := by
  induction l with
  | nil => rfl
  | cons kv rest ih =>
    by_cases hk : kv.1 = k
    · simp [lookupKey, hk] at h
    · simp [lookupKey, hk] at h
      simp [eraseKey, hk, ih h]

/-- The LRU sweep's second pass (`removeItem` per collected key) acts on
the map exactly as deleting each collected key. -/
theorem lru_sweep_items (ks : List Key) :
    ∀ (l : List (Key × LRUItem)) (o : List Key),
      (ks.foldl
        (fun (s : List (Key × LRUItem) × List Key) (k : Key) =>
          match lookupKey s.1 k with
          | some _ => (eraseKey s.1 k, s.2.erase k)
          | none => s) (l, o)).1 = eraseAllKeys l ks := by
  induction ks with
  | nil => intro l o; rfl
  | cons k ks' ih =>
    intro l o
    rcases hl : lookupKey l k with _ | w
    · have h1 : eraseAllKeys l (k :: ks') = eraseAllKeys (eraseKey l k) ks' := rfl
      rw [h1, eraseKey_of_none l k hl]
      simpa [hl] using ih l o
    · simpa [hl] using ih (eraseKey l k) (o.erase k)

/-- Lookup after deleting exactly the collected expired keys. -/
theorem sweep_lookup_char {α : Type} (isExp : α → Int → Bool)
    (l : List (Key × α)) (now : Int) (hnd : (l.map Prod.fst).Nodup) :
    (∀ k it, lookupKey l k = some it →
      lookupKey (eraseAllKeys l (expiredKeysOf isExp l now)) k =
        (if isExp it now then none else some it)) ∧
    (∀ k, lookupKey l k = none →
      lookupKey (eraseAllKeys l (expiredKeysOf isExp l now)) k = none) := by
  constructor
  · intro k it hit
    rw [lookupKey_eraseAllKeys _ _ _ hnd]
    by_cases hm : k ∈ expiredKeysOf isExp l now
    · obtain ⟨it', hit', hexp⟩ := (mem_expiredKeysOf isExp l now k hnd).mp hm
      rw [hit] at hit'
      cases hit'
      simp [hm, hexp]
    · have hexp : isExp it now = false := by
        by_contra h
        exact hm ((mem_expiredKeysOf isExp l now k hnd).mpr
          ⟨it, hit, by simpa using h⟩)
      simp [hm, hit, hexp]
  · intro k hk
    rw [lookupKey_eraseAllKeys _ _ _ hnd]
    by_cases hm : k ∈ expiredKeysOf isExp l now
    · simp [hm]
    · simp [hm, hk]

theorem calculateHitRate_evictions (s : Stats) :
    (s.calculateHitRate).evictions = s.evictions := by
  simp only [Stats.calculateHitRate]
  split <;> rfl

/-- Claim C9 (amended): every sweep pass deletes exactly the entries
expired at that instant and keeps every unexpired entry; the
configurable, LRU and LFU engines add the number of deleted entries to
their eviction counter, while the unbounded engine has no eviction
counter at all — its stats report 0 evictions no matter what the sweep
removed (see the counterexample). -/
theorem C9_sweep_contract :
    (∀ (c : MemoryCache) (now : Int), (c.data.map Prod.fst).Nodup →
      (∀ k it, lookupKey c.data k = some it →
        lookupKey (c.removeExpired now).data k =
          (if it.isExpired now then none else some it)) ∧
      (∀ k, lookupKey c.data k = none →
        lookupKey (c.removeExpired now).data k = none) ∧
      (c.removeExpired now).evictions =
        c.evictions + ((c.data.filter (fun kv => kv.2.isExpired now)).length : Int)) ∧
    (∀ (c : LRUCache) (now : Int), (c.items.map Prod.fst).Nodup →
      (∀ k it, lookupKey c.items k = some it →
        lookupKey (c.removeExpired now).items k =
          (if it.isExpired now then none else some it)) ∧
      (∀ k, lookupKey c.items k = none →
        lookupKey (c.removeExpired now).items k = none) ∧
      (c.removeExpired now).evictions =
        c.evictions + ((c.items.filter (fun kv => kv.2.isExpired now)).length : Int)) ∧
    (∀ (c : LFUCache) (now : Int), (c.items.map Prod.fst).Nodup →
      (∀ k it, lookupKey c.items k = some it →
        lookupKey (c.removeExpired now).items k =
          (if it.isExpired now then none else some it)) ∧
      (∀ k, lookupKey c.items k = none →
        lookupKey (c.removeExpired now).items k = none) ∧
      (c.removeExpired now).evictions =
        c.evictions + ((c.items.filter (fun kv => kv.2.isExpired now)).length : Int)) ∧
    (∀ (c : SimpleCache) (now : Int), (c.items.map Prod.fst).Nodup →
      (∀ k it, lookupKey c.items k = some it →
        lookupKey (c.removeExpired now).items k =
          (if it.isExpired now then none else some it)) ∧
      (∀ k, lookupKey c.items k = none →
        lookupKey (c.removeExpired now).items k = none) ∧
      ((c.removeExpired now).Stats).evictions = 0) := by
  refine ⟨?_, ?_, ?_, ?_⟩
  · intro c now hnd
    refine ⟨?_, ?_, ?_⟩
    · intro k it hit
      show lookupKey (c.data.filter (fun kv => !kv.2.isExpired now)) k =
        (if it.isExpired now then none else some it)
      rw [lookupKey_filter _ _ _ hnd, hit]
      cases hexp : it.isExpired now <;> simp [hexp]
    · intro k hk
      show lookupKey (c.data.filter (fun kv => !kv.2.isExpired now)) k = none
      rw [lookupKey_filter _ _ _ hnd, hk]
    · show (if 0 < (c.data.filter (fun kv => kv.2.isExpired now)).length then
          c.evictions + ((c.data.filter (fun kv => kv.2.isExpired now)).length : Int)
        else c.evictions) = _
      split <;> omega
  · intro c now hnd
    have hitems : (c.removeExpired now).items =
        eraseAllKeys c.items (expiredKeysOf LRUItem.isExpired c.items now) := by
      show (List.foldl _ (c.items, c.order) _).1 = _
      exact lru_sweep_items _ c.items c.order
    obtain ⟨h1, h2⟩ := sweep_lookup_char LRUItem.isExpired c.items now hnd
    refine ⟨?_, ?_, ?_⟩
    · intro k it hit
      rw [hitems]
      exact h1 k it hit
    · intro k hk
      rw [hitems]
      exact h2 k hk
    · show (if 0 < (expiredKeysOf LRUItem.isExpired c.items now).length then
          c.evictions + ((expiredKeysOf LRUItem.isExpired c.items now).length : Int)
        else c.evictions) = _
      have hlen : (expiredKeysOf LRUItem.isExpired c.items now).length =
          (c.items.filter (fun kv => kv.2.isExpired now)).length := by
        simp [expiredKeysOf]
      rw [hlen]
      split <;> omega
  · intro c now hnd
    obtain ⟨h1, h2⟩ := sweep_lookup_char LFUItem.isExpired c.items now hnd
    refine ⟨h1, h2, ?_⟩
    show (if 0 < (expiredKeysOf LFUItem.isExpired c.items now).length then
        c.evictions + ((expiredKeysOf LFUItem.isExpired c.items now).length : Int)
      else c.evictions) = _
    have hlen : (expiredKeysOf LFUItem.isExpired c.items now).length =
        (c.items.filter (fun kv => kv.2.isExpired now)).length := by
      simp [expiredKeysOf]
    rw [hlen]
    split <;> omega
  · intro c now hnd
    obtain ⟨h1, h2⟩ := sweep_lookup_char SimpleItem.isExpired c.items now hnd
    exact ⟨h1, h2, calculateHitRate_evictions _⟩

/-- Witness for C9_sweep_contract at concrete inputs. -/
theorem C9_sweep_contract_witness :
    ((memABC.data.map Prod.fst).Nodup ∧
      (memABC.removeExpired 10).evictions =
        memABC.evictions +
          ((memABC.data.filter (fun kv => kv.2.isExpired 10)).length : Int)) ∧
    ((lruABC.items.map Prod.fst).Nodup ∧
      (lruABC.removeExpired 10).evictions =
        lruABC.evictions +
          ((lruABC.items.filter (fun kv => kv.2.isExpired 10)).length : Int)) ∧
    ((lfuABC.items.map Prod.fst).Nodup ∧
      (lfuABC.removeExpired 10).evictions =
        lfuABC.evictions +
          ((lfuABC.items.filter (fun kv => kv.2.isExpired 10)).length : Int)) ∧
    ((simpleExpired.items.map Prod.fst).Nodup ∧
      ((simpleExpired.removeExpired 10).Stats).evictions = 0) := by
  refine ⟨⟨by decide, ?_⟩, ⟨by decide, ?_⟩, ⟨by decide, ?_⟩, ⟨by decide, ?_⟩⟩
  · exact (C9_sweep_contract.1 memABC 10 (by decide)).2.2
  · exact (C9_sweep_contract.2.1 lruABC 10 (by decide)).2.2
  · exact (C9_sweep_contract.2.2.1 lfuABC 10 (by decide)).2.2
  · exact (C9_sweep_contract.2.2.2 simpleExpired 10 (by decide)).2.2

/-! ### Claim C10 — hit-rate arithmetic -/

/-- Claim C10: every engine's `stats()` computes
`hitRate = hits / (hits + misses) * 100` (exact rational model of the
float64 formula) as soon as at least one access was recorded, and
reports exactly 0 before the first access. -/
theorem C10_hit_rate :
    (∀ c : MemoryCache,
      (0 < c.hits + c.misses →
        (c.Stats).hitRate = (c.hits : ℚ) / ((c.hits + c.misses : Int) : ℚ) * 100) ∧
      (c.hits = 0 → c.misses = 0 → (c.Stats).hitRate = 0)) ∧
    (∀ c : SimpleCache,
      (0 < c.hits + c.misses →
        (c.Stats).hitRate = (c.hits : ℚ) / ((c.hits + c.misses : Int) : ℚ) * 100) ∧
      (c.hits = 0 → c.misses = 0 → (c.Stats).hitRate = 0)) ∧
    (∀ c : LRUCache,
      (0 < c.hits + c.misses →
        (c.Stats).hitRate = (c.hits : ℚ) / ((c.hits + c.misses : Int) : ℚ) * 100) ∧
      (c.hits = 0 → c.misses = 0 → (c.Stats).hitRate = 0)) ∧
    (∀ c : LFUCache,
      (0 < c.hits + c.misses →
        (c.Stats).hitRate = (c.hits : ℚ) / ((c.hits + c.misses : Int) : ℚ) * 100) ∧
      (c.hits = 0 → c.misses = 0 → (c.Stats).hitRate = 0)) := by
  refine ⟨?_, ?_, ?_, ?_⟩
  · intro c
    constructor
    · intro h
      simp [MemoryCache.Stats, Stats.calculateHitRate, h]
    · intro h1 h2
      simp [MemoryCache.Stats, Stats.calculateHitRate, h1, h2]
  · intro c
    constructor
    · intro h
      simp [SimpleCache.Stats, Stats.calculateHitRate, h]
    · intro h1 h2
      simp [SimpleCache.Stats, Stats.calculateHitRate, h1, h2]
  · intro c
    constructor
    · intro h
      simp [LRUCache.Stats, Stats.calculateHitRate, h]
    · intro h1 h2
      simp [LRUCache.Stats, Stats.calculateHitRate, h1, h2]
  · intro c
    constructor
    · intro h
      simp [LFUCache.Stats, Stats.calculateHitRate, h]
    · intro h1 h2
      simp [LFUCache.Stats, Stats.calculateHitRate, h1, h2]

/-- Witness for C10_hit_rate at concrete inputs. -/
theorem C10_hit_rate_witness :
    ((0 : Int) < 1 + 1 ∧
      ((MemoryCache.mk [] DefaultConfig 1 1 0).Stats).hitRate =
        ((1 : Int) : ℚ) / (((1 : Int) + 1 : Int) : ℚ) * 100) ∧
    (((SimpleCache.mk [] 0 false 0 0).Stats).hitRate = 0) ∧
    ((0 : Int) < 3 + 1 ∧
      ((LRUCache.mk [] [] 5 0 false 3 1 0).Stats).hitRate =
        ((3 : Int) : ℚ) / (((3 : Int) + 1 : Int) : ℚ) * 100) ∧
    (((LFUCache.mk [] 5 0 false 0 0 0).Stats).hitRate = 0) := by
  refine ⟨⟨by decide, ?_⟩, ?_, ⟨by decide, ?_⟩, ?_⟩
  · exact ((C10_hit_rate.1 (MemoryCache.mk [] DefaultConfig 1 1 0)).1) (by decide)
  · exact ((C10_hit_rate.2.1 (SimpleCache.mk [] 0 false 0 0)).2) rfl rfl
  · exact ((C10_hit_rate.2.2.1 (LRUCache.mk [] [] 5 0 false 3 1 0)).1) (by decide)
  · exact ((C10_hit_rate.2.2.2 (LFUCache.mk [] 5 0 false 0 0 0)).2) rfl rfl

end HPCache
